import Mathlib

/-!
Verification of the osp3 library (ODROID Smart Power 3 serial logger) against its
natural-language specification.

The development shallowly embeds the two core components of `src/osp3.c`:

* the log-entry codec (`osp3_log_checksum_compute`, `osp3_log_checksum`,
  `osp3_log_checksum_test`, `osp3_log_parse`), including a faithful model of the
  `sscanf`/`strtoul` behaviour the C code relies on, and
* the buffered line reader (`osp3_read`, `osp3_read_line`, `lineccpy`) over a
  transport that delivers bytes in bounded packets.

Bytes are modelled as natural numbers (masked with `% 256` where the C code
performs unsigned 8-bit arithmetic); buffers are lists of bytes; fallible calls
return explicit result types carrying the `errno` the C code sets.
-/

namespace OSP3

/-- The `errno` values the C code assigns or propagates. -/
inductive Errno
  | EINVAL
  | ETIME
  | ENOBUFS
  | EILSEQ
  | other (n : Nat)
deriving DecidableEq, Repr

/-- Cast to `unsigned char` / `uint8_t`. -/
def u8 (n : Nat) : Nat := n % 256

/-- `OSP3_LOG_PROTOCOL_SIZE` from `osp3.h`: full line length including `\r\n`. -/
def OSP3_LOG_PROTOCOL_SIZE : Nat := 81

/-- `OSP3_W_MAX_PACKET_SIZE` from `osp3.h`: maximum transport packet size. -/
def OSP3_W_MAX_PACKET_SIZE : Nat := 64

/-- `CS_2COMPL_OFF` from `osp3.c`: byte offset of the additive checksum field
(the field layout macros sum to 74). -/
def CS_2COMPL_OFF : Nat := 74

/-- `CS_XOR_OFF` from `osp3.c`: byte offset of the xor checksum field. -/
def CS_XOR_OFF : Nat := 77

/-- C `isspace` in the default locale: space and `\t \n \v \f \r`. -/
def isSpaceByte (c : Nat) : Bool := c == 32 || (decide (9 ≤ c) && decide (c ≤ 13))

/-- Value of an ASCII decimal digit. -/
def decDigit (c : Nat) : Option Nat :=
  if 48 ≤ c ∧ c ≤ 57 then some (c - 48) else none

/-- Value of an ASCII hexadecimal digit (both cases). -/
def hexDigit (c : Nat) : Option Nat :=
  if 48 ≤ c ∧ c ≤ 57 then some (c - 48)
  else if 97 ≤ c ∧ c ≤ 102 then some (c - 87)
  else if 65 ≤ c ∧ c ≤ 70 then some (c - 55)
  else none

/-- Digit value in the given numeric base (10 or 16 in this development). -/
def digitVal (base c : Nat) : Option Nat :=
  if base = 16 then hexDigit c else decDigit c

/-- The C string denoted by a byte buffer: everything before the first NUL. -/
def cstr (l : List Nat) : List Nat := l.takeWhile (fun c => c != 0)

/-! ## Checksum computation (`osp3_log_checksum_compute`) -/

/-- The accumulation loop of `osp3_log_checksum_compute`: per-byte wraparound
8-bit addition and 8-bit xor, over the listed bytes. -/
def checksumLoop : List Nat → Nat → Nat → Nat × Nat
  | [], cs2s, csxor => (cs2s, csxor)
  | b :: t, cs2s, csxor => checksumLoop t ((cs2s + u8 b) % 256) (Nat.xor csxor (u8 b))

/-- The bytes the checksum loop visits: `log[0] .. log[CS_2COMPL_OFF-1]`,
i.e. offsets 0 through 73 (74 bytes). -/
def checkedBytes (log : List Nat) : List Nat :=
  (List.range CS_2COMPL_OFF).map (fun i => log.getD i 0)

/-- `osp3_log_checksum_compute`: sums and xors the 74 bytes before the additive
checksum field; the sum is finished with `(~s) + 1` on `uint8_t`. -/
def osp3_log_checksum_compute (log : List Nat) : Nat × Nat :=
  let p := checksumLoop (checkedBytes log) 0 0
  ((255 - p.1 + 1) % 256, p.2)

/-! ## `strtoul(s, NULL, 16)` on short strings, cast to `uint8_t`

`osp3_log_checksum_test` decodes each embedded checksum by building a 2-byte
C string and calling `strtoul` with base 16.  The model below follows the C
standard's subject-sequence rules: skip whitespace, optional sign, optional
`0x`/`0X` prefix (only when a hexadecimal digit follows), then a digit run.
The inputs here have at most two characters, so the `ULONG_MAX` overflow
clamping of `strtoul` is unreachable and is not modelled. -/

/-- Accumulate a run of digits of `base`, stopping at the first non-digit. -/
def digitsRun (base : Nat) : List Nat → Nat → Nat
  | [], acc => acc
  | c :: t, acc =>
    match digitVal base c with
    | some d => digitsRun base t (acc * base + d)
    | none => acc

/-- Magnitude part of `strtoul(_, NULL, 16)`: optional `0x`/`0X` prefix (taken
only when a hexadecimal digit follows, per the longest-subject-sequence rule),
then a digit run. -/
def strtoul16Mag : List Nat → Nat
  | c :: x :: t =>
    if c = 48 ∧ (x = 120 ∨ x = 88) ∧ ((t.head?.bind hexDigit).isSome) then digitsRun 16 t 0
    else digitsRun 16 (c :: x :: t) 0
  | l => digitsRun 16 l 0

/-- `(uint8_t) strtoul(s, NULL, 16)`: whitespace skip, optional sign (negation
wraps on `unsigned long`, and since `256` divides `2^64` the final `uint8_t`
cast turns it into a negation mod 256), magnitude, cast. -/
def strtoul16_u8 (s : List Nat) : Nat :=
  match s.dropWhile isSpaceByte with
  | [] => 0
  | c :: t =>
    if c = 45 then (256 - strtoul16Mag t % 256) % 256
    else if c = 43 then strtoul16Mag t % 256
    else strtoul16Mag (c :: t) % 256

/-! ## Checksum testing (`osp3_log_checksum_test`, `osp3_log_checksum`) -/

/-- Result of `osp3_log_checksum_test`: `-1` with `errno`, or the `int` result
(`0` match / `1` mismatch). -/
inductive CsResult
  | err (e : Errno)
  | res (r : Nat)
deriving DecidableEq, Repr

/-- The hex-decoded checksum pair embedded in the payload, exactly as
`osp3_log_checksum_test` extracts it (2-byte C strings through `strtoul`). -/
def embeddedChecksums (log : List Nat) : Nat × Nat :=
  (strtoul16_u8 (cstr [log.getD CS_2COMPL_OFF 0, log.getD (CS_2COMPL_OFF + 1) 0]),
   strtoul16_u8 (cstr [log.getD CS_XOR_OFF 0, log.getD (CS_XOR_OFF + 1) 0]))

/-- `osp3_log_checksum_test`: size guard, then `!(cs8_2s == cs8_2s_log && cs8_xor == cs8_xor_log)`. -/
def osp3_log_checksum_test (log : List Nat) (log_sz : Nat) (cs8_2s cs8_xor : Nat) : CsResult :=
  if log_sz < OSP3_LOG_PROTOCOL_SIZE then .err .EINVAL
  else if cs8_2s = (embeddedChecksums log).1 ∧ cs8_xor = (embeddedChecksums log).2 then .res 0
  else .res 1

/-- Result of `osp3_log_checksum`: `-1` with `errno`, or the two computed
checksums written through the out-parameters together with the `int` result. -/
inductive CsPairResult
  | err (e : Errno)
  | res (cs8_2s cs8_xor r : Nat)
deriving DecidableEq, Repr

/-- `osp3_log_checksum`: size guard, compute both checksums, then delegate to
`osp3_log_checksum_test` with the computed values. -/
def osp3_log_checksum (log : List Nat) (log_sz : Nat) : CsPairResult :=
  if log_sz < OSP3_LOG_PROTOCOL_SIZE then .err .EINVAL
  else
    match osp3_log_checksum_test log log_sz
        (osp3_log_checksum_compute log).1 (osp3_log_checksum_compute log).2 with
    | .err e => .err e
    | .res r => .res (osp3_log_checksum_compute log).1 (osp3_log_checksum_compute log).2 r

/-! ## The `sscanf` model

`osp3_log_parse` calls `sscanf` with the fixed format
`"%010lu,%05u,%04u,%05u,%1u,%05u,%04u,%05u,%1u,%02x,%05u,%04u,%05u,%1u,%02x,%hhx,%hhx\r\n"`.
The model interprets a directive list: numeric conversions follow the C
standard (leading whitespace skipped, optional sign counted against the field
width, optional `0x` prefix for base 16, maximal digit run bounded by the
width, value reduced to the destination type's size), literal characters must
match exactly, and the trailing `\r\n` are whitespace directives that match
any (possibly empty) run of whitespace.  The two `%hhx` conversions carry no
field width: they consume the maximal hex-digit run (`numU` below; digit runs
long enough to overflow `unsigned long`, which `strtoul` would clamp, are not
modelled — no such run appears in this development). -/

/-- One directive of the parse format string. -/
inductive ScanDir
  | lit (c : Nat)
  | num (base width bits : Nat)
  | numU (base bits : Nat)
  | wsp
deriving DecidableEq, Repr

/-- Outcome of one numeric conversion. -/
inductive ConvOut
  | inFail
  | matchFail
  | conv (v : Nat) (rest : List Nat)
deriving DecidableEq, Repr

/-- Consume up to `w` characters that are digits of `base`. Returns the
accumulated value and the unconsumed remainder. -/
def scanDigits (base : Nat) : Nat → List Nat → Nat → Nat × List Nat
  | 0, l, acc => (acc, l)
  | _ + 1, [], acc => (acc, [])
  | w + 1, c :: t, acc =>
    match digitVal base c with
    | some d => scanDigits base w t (acc * base + d)
    | none => (acc, c :: t)

/-- Consume the maximal run of digits of `base` (a conversion without field
width). Returns the accumulated value and the unconsumed remainder. -/
def scanDigitsU (base : Nat) : List Nat → Nat → Nat × List Nat
  | [], acc => (acc, [])
  | c :: t, acc =>
    match digitVal base c with
    | some d => scanDigitsU base t (acc * base + d)
    | none => (acc, c :: t)

/-- Numeric conversion after the sign has been handled: optional `0x` prefix
(base 16, only when it fits the width and a digit follows), then a digit run of
which at least one digit must exist. -/
def scanNumCore (base w bits : Nat) (neg : Bool) (l : List Nat) : ConvOut :=
  let pfx : List Nat × Nat :=
    match l with
    | c :: x :: t =>
      if c = 48 ∧ base = 16 ∧ (x = 120 ∨ x = 88) ∧ 3 ≤ w ∧ ((t.head?.bind (digitVal 16)).isSome)
      then (t, w - 2)
      else (c :: x :: t, w)
    | _ => (l, w)
  if 0 < pfx.2 ∧ ((pfx.1.head?.bind (digitVal base)).isSome) then
    let r := scanDigits base pfx.2 pfx.1 0
    .conv ((if neg then (2 ^ 64 - r.1 % 2 ^ 64) % 2 ^ 64 else r.1) % 2 ^ bits) r.2
  else .matchFail

/-- A full numeric conversion: whitespace skip (input failure at end of input),
optional sign (counted against the width), core conversion. -/
def scanNum (base width bits : Nat) (input : List Nat) : ConvOut :=
  match input.dropWhile isSpaceByte with
  | [] => .inFail
  | c :: t =>
    if c = 45 then scanNumCore base (width - 1) bits true t
    else if c = 43 then scanNumCore base (width - 1) bits false t
    else scanNumCore base width bits false (c :: t)

/-- Numeric conversion without a field width, after the sign: optional `0x`
prefix (base 16, when a hexadecimal digit follows), then the maximal digit run,
of which at least one digit must exist. -/
def scanNumCoreU (base bits : Nat) (neg : Bool) (l : List Nat) : ConvOut :=
  let pfx : List Nat :=
    match l with
    | c :: x :: t =>
      if c = 48 ∧ base = 16 ∧ (x = 120 ∨ x = 88) ∧ ((t.head?.bind (digitVal 16)).isSome)
      then t
      else c :: x :: t
    | _ => l
  if ((pfx.head?.bind (digitVal base)).isSome) then
    let r := scanDigitsU base pfx 0
    .conv ((if neg then (2 ^ 64 - r.1 % 2 ^ 64) % 2 ^ 64 else r.1) % 2 ^ bits) r.2
  else .matchFail

/-- A numeric conversion without a field width (the format's `%hhx`):
whitespace skip (input failure at end of input), optional sign, unbounded core
conversion. -/
def scanNumU (base bits : Nat) (input : List Nat) : ConvOut :=
  match input.dropWhile isSpaceByte with
  | [] => .inFail
  | c :: t =>
    if c = 45 then scanNumCoreU base bits true t
    else if c = 43 then scanNumCoreU base bits false t
    else scanNumCoreU base bits false (c :: t)

/-- Run the directive list: returns the number of completed conversions and
their values. A failing directive stops the scan. -/
def runDirs : List ScanDir → List Nat → Nat → List Nat → Nat × List Nat
  | [], _, m, vs => (m, vs)
  | .wsp :: ds, input, m, vs => runDirs ds (input.dropWhile isSpaceByte) m vs
  | .lit c :: ds, input, m, vs =>
    match input with
    | c2 :: t => if c2 = c then runDirs ds t m vs else (m, vs)
    | [] => (m, vs)
  | .num b w bits :: ds, input, m, vs =>
    match scanNum b w bits input with
    | .conv v rest => runDirs ds rest (m + 1) (vs ++ [v])
    | _ => (m, vs)
  | .numU b bits :: ds, input, m, vs =>
    match scanNumU b bits input with
    | .conv v rest => runDirs ds rest (m + 1) (vs ++ [v])
    | _ => (m, vs)

/-- The comma separator. -/
def comma : ScanDir := .lit 44

/-- The directive list of the `osp3_log_parse` format string.  The two
checksum conversions are `%"SCNx8"` = `%hhx`, which carry no field width. -/
def logFmt : List ScanDir :=
  [.num 10 10 64, comma, .num 10 5 32, comma, .num 10 4 32, comma, .num 10 5 32, comma,
   .num 10 1 32, comma, .num 10 5 32, comma, .num 10 4 32, comma, .num 10 5 32, comma,
   .num 10 1 32, comma, .num 16 2 32, comma, .num 10 5 32, comma, .num 10 4 32, comma,
   .num 10 5 32, comma, .num 10 1 32, comma, .num 16 2 32, comma, .numU 16 8, comma,
   .numU 16 8, .wsp, .wsp]

/-- `osp3_log_entry` from `osp3.h`. -/
structure osp3_log_entry where
  ms : Nat
  mV_in : Nat
  mA_in : Nat
  mW_in : Nat
  onoff_in : Nat
  mV_0 : Nat
  mA_0 : Nat
  mW_0 : Nat
  onoff_0 : Nat
  intr_0 : Nat
  mV_1 : Nat
  mA_1 : Nat
  mW_1 : Nat
  onoff_1 : Nat
  intr_1 : Nat
  checksum8_2s_compl : Nat
  checksum8_xor : Nat
deriving DecidableEq, Repr

/-- Pack the 17 converted values into the entry struct (in format order). -/
def entryOfVals (vs : List Nat) : osp3_log_entry :=
  ⟨vs.getD 0 0, vs.getD 1 0, vs.getD 2 0, vs.getD 3 0, vs.getD 4 0, vs.getD 5 0,
   vs.getD 6 0, vs.getD 7 0, vs.getD 8 0, vs.getD 9 0, vs.getD 10 0, vs.getD 11 0,
   vs.getD 12 0, vs.getD 13 0, vs.getD 14 0, vs.getD 15 0, vs.getD 16 0⟩

/-- Result of `osp3_log_parse`: `-1` with `errno`, `1` when not all 17 fields
matched (the entry is only partially written), or `0` with the parsed entry. -/
inductive ParseResult
  | err (e : Errno)
  | incomplete
  | ok (entry : osp3_log_entry)
deriving DecidableEq, Repr

/-- `osp3_log_parse`: size guard, then `sscanf`.  `sscanf` returns `EOF` when
input failure occurs before the first conversion completes, i.e. when the C
string holds nothing but whitespace; the code then reports `-1` (setting
`errno` to `EILSEQ` when it was previously clear). -/
def osp3_log_parse (log : List Nat) (log_sz : Nat) : ParseResult :=
  if log_sz < OSP3_LOG_PROTOCOL_SIZE then .err .EINVAL
  else
    let s := cstr log
    if (s.dropWhile isSpaceByte).isEmpty then .err .EILSEQ
    else
      let r := runDirs logFmt s 0 []
      if r.1 = 17 then .ok (entryOfVals r.2) else .incomplete

/-! ## Spec-side definitions

These definitions follow the specification's words (not the C code); they are
the comparison points for the refinement-style claims. -/

/-- Spec §4.2/§6 field extraction: exactly `w` characters, all digits of
`base`, consumed from the front. -/
def readFixed (base w : Nat) (l : List Nat) : Option (Nat × List Nat) :=
  let ds := l.take w
  if ds.length = w ∧ ds.all (fun c => (digitVal base c).isSome)
  then some (digitsRun base ds 0, l.drop w)
  else none

/-- Strict interpretation of the directive list, per the spec's layout: fixed
widths, mandatory separators.  The width-less conversions are the two checksum
fields, whose width per the spec's field table (§6) is 2 hex digits.  Returns
the field values in order together with the consumed prefix and the remainder
from the terminator on. -/
def specRun : List ScanDir → List Nat → Option (List Nat × List Nat × List Nat)
  | [], l => some ([], [], l)
  | .wsp :: _, l => some ([], [], l)
  | .lit c :: ds, l =>
    match l with
    | c2 :: t =>
      if c2 = c then
        match specRun ds t with
        | some (vs, used, rest) => some (vs, c2 :: used, rest)
        | none => none
      else none
    | [] => none
  | .num b w _ :: ds, l =>
    match readFixed b w l with
    | some (v, t) =>
      match specRun ds t with
      | some (vs, used, rest) => some (v :: vs, l.take w ++ used, rest)
      | none => none
    | none => none
  | .numU b _ :: ds, l =>
    match readFixed b 2 l with
    | some (v, t) =>
      match specRun ds t with
      | some (vs, used, rest) => some (v :: vs, l.take 2 ++ used, rest)
      | none => none
    | none => none

/-- Modelled from the spec: `parse` as "strict fixed-width scanning of the 17
fields per the layout" (§4.2), with the field table of §6 — decimal fields of
the exact stated widths, 2-hex-digit interrupt and checksum fields, mandatory
comma separators, and the terminator in its layout position but optional:
after the 17th field the line either ends or continues with the `\r` of the
`\r\n` terminator. -/
def spec_strict_parse (log : List Nat) : Option osp3_log_entry :=
  match specRun logFmt log with
  | some (vs, _, rest) =>
    if rest = [] ∨ rest.head? = some 13 then some (entryOfVals vs) else none
  | none => none

/-- Modelled from the spec's literal byte count in `computeChecksums`:
"Sum all 73 bytes ... then negate (two's-complement) the final sum.
Separately XOR all 73 bytes" — i.e. a sum and xor over the first 73 bytes. -/
def spec_checksum_compute_73 (log : List Nat) : Nat × Nat :=
  let bs := (List.range 73).map (fun i => log.getD i 0)
  ((256 - ((bs.map u8).sum % 256)) % 256, bs.foldl (fun x b => Nat.xor x (u8 b)) 0)

/-- Spec-style statement of the additive checksum over a byte list: negated
mod-256 sum (computed on the whole sum at once, unlike the C loop). -/
def specAdditive (bs : List Nat) : Nat := (256 - ((bs.map u8).sum % 256)) % 256

/-- Spec-style statement of the xor checksum over a byte list. -/
def specXor (bs : List Nat) : Nat := bs.foldl (fun x b => Nat.xor x (u8 b)) 0

/-- Plain positional hex decode of the two embedded checksum fields ("each
encoded as 2 hexadecimal digits"), defined when all four checksum characters
are hexadecimal digits. -/
def specEmbedded (log : List Nat) : Nat × Nat :=
  (16 * (hexDigit (log.getD CS_2COMPL_OFF 0)).getD 0
     + (hexDigit (log.getD (CS_2COMPL_OFF + 1) 0)).getD 0,
   16 * (hexDigit (log.getD CS_XOR_OFF 0)).getD 0
     + (hexDigit (log.getD (CS_XOR_OFF + 1) 0)).getD 0)

/-- All four embedded checksum characters are hexadecimal digits. -/
def hexOK (log : List Nat) : Prop :=
  (hexDigit (log.getD CS_2COMPL_OFF 0)).isSome
  ∧ (hexDigit (log.getD (CS_2COMPL_OFF + 1) 0)).isSome
  ∧ (hexDigit (log.getD CS_XOR_OFF 0)).isSome
  ∧ (hexDigit (log.getD (CS_XOR_OFF + 1) 0)).isSome

instance (log : List Nat) : Decidable (hexOK log) := by
  unfold hexOK
  infer_instance

/-! ## Concrete example material -/

/-- The wiki example line (81 bytes, `\r\n`-terminated), as bytes. -/
def exLine : List Nat :=
  ("0000815169,15296,0036,00550,0,00000,0000,00000,0,00,00000,0000,00000,0,00,14,12".data.map
    (fun c => c.toNat)) ++ [13, 10]

/-- The entry the example line denotes. -/
def exEntry : osp3_log_entry :=
  ⟨815169, 15296, 36, 550, 0, 0, 0, 0, 0, 0, 0, 0, 0, 0, 0, 20, 18⟩

/-- The example payload without its `\r\n` terminator: 79 bytes. -/
def exPayload79 : List Nat := exLine.take 79

/-- The example line with its leading digit replaced by `+` (ASCII 43): not a
well-formed fixed-width record, but accepted by `sscanf`. -/
def exLinePlus : List Nat := 43 :: exLine.drop 1

/-! ## The buffered line reader

State: the single-packet lookahead buffer `osp3_rw_buffer` (a 64-byte array
plus `idx`/`rem` bookkeeping) and the serial transport.  The transport is
modelled as a schedule of fetch events: each `osp3_read_buf` call (pselect +
read) either fails with an `errno`, or returns the next pending packet capped
at the requested size — a larger packet leaves its remainder pending, as the
OS receive buffer does.  An empty schedule behaves as a timeout (`ETIME`). -/

/-- One outcome of an underlying `osp3_read_buf` call. -/
inductive FetchEvent
  | pkt (p : List Nat)
  | fail (e : Errno)
deriving DecidableEq, Repr

/-- `osp3_rw_buffer` from `osp3.c`. -/
structure osp3_rw_buffer where
  buf : List Nat
  idx : Nat
  rem : Nat
deriving DecidableEq, Repr

/-- `osp3_device`: the lookahead buffer plus the transport schedule (standing
in for the file descriptor). -/
structure osp3_device where
  rbuf : osp3_rw_buffer
  stream : List FetchEvent
deriving DecidableEq, Repr

/-- The unconsumed bytes of the lookahead buffer: `buf[idx .. idx+rem-1]`. -/
def rbufValid (d : osp3_device) : List Nat := (d.rbuf.buf.drop d.rbuf.idx).take d.rbuf.rem

/-- `osp3_read_buf`: one `pselect`+`read`. Returns the read bytes (at most
`req`) or an error, together with the remaining schedule. -/
def osp3_read_buf (req : Nat) (s : List FetchEvent) : Except Errno (List Nat) × List FetchEvent :=
  match s with
  | [] => (.error .ETIME, [])
  | .fail e :: rest => (.error e, rest)
  | .pkt p :: rest =>
    if p.length ≤ req then (.ok p, rest)
    else (.ok (p.take req), .pkt (p.drop req) :: rest)

/-- Result of `osp3_read` / `osp3_read_line`: success or `-1` with `errno`;
`out` is the destination's written content (`transferred = out.length`), which
on error holds the bytes written before the failure. `outOfFuel` is the
sentinel of the loop-fuel encoding and is unreachable with sufficient fuel. -/
inductive ReadResult
  | ok (out : List Nat) (dev : osp3_device)
  | err (e : Errno) (out : List Nat) (dev : osp3_device)
  | outOfFuel
deriving DecidableEq, Repr

/-- `osp3_read`: drain the lookahead buffer first, then at most one transport
fetch for the remainder. -/
def osp3_read (dev : osp3_device) (len : Nat) : ReadResult :=
  let t1 := min dev.rbuf.rem len
  let out1 := (dev.rbuf.buf.drop dev.rbuf.idx).take t1
  let rem2 := dev.rbuf.rem - t1
  let idx2 := if rem2 > 0 then dev.rbuf.idx + t1 else 0
  let rb1 : osp3_rw_buffer := ⟨dev.rbuf.buf, idx2, rem2⟩
  if t1 < len then
    match osp3_read_buf (len - t1) dev.stream with
    | (.error e, s2) => .err e out1 ⟨rb1, s2⟩
    | (.ok bs, s2) => .ok (out1 ++ bs) ⟨rb1, s2⟩
  else .ok out1 ⟨rb1, dev.stream⟩


/-- The copy core of `memccpy(dst, src, '\n', n)`: copy up to `n` bytes,
stopping after the first newline (ASCII 10). Returns the copied bytes and
whether the newline was found. -/
def memccpyNL : Nat → List Nat → List Nat × Bool
  | 0, _ => ([], false)
  | _ + 1, [] => ([], false)
  | n + 1, c :: t =>
    if c = 10 then ([c], true)
    else
      let r := memccpyNL n t
      (c :: r.1, r.2)

/-- `lineccpy` from `osp3.c`: `memccpy` through `min dst_sz src_sz` bytes of
the source; the written count is the length of the first component. -/
def lineccpy (dst_sz : Nat) (src : List Nat) (src_sz : Nat) : List Nat × Bool :=
  memccpyNL (min dst_sz src_sz) src

/-- The `while (!complete)` loop of `osp3_read_line`, with explicit fuel (the
C loop terminates because each iteration either consumes a schedule event or
strictly fills the destination; `outOfFuel` is unreachable with fuel above
`stream.length + len + 1`). `out` is what was already written to `buf`. -/
def read_line_loop : Nat → Nat → List Nat → osp3_rw_buffer → List FetchEvent → ReadResult
  | 0, _, _, _, _ => .outOfFuel
  | fuel + 1, len, out, rb, s =>
    let packet_sz := min OSP3_W_MAX_PACKET_SIZE (len - out.length)
    if packet_sz = 0 then .err .ENOBUFS out ⟨rb, s⟩
    else
      match osp3_read_buf packet_sz s with
      | (.error e, s2) => .err e out ⟨rb, s2⟩
      | (.ok packet, s2) =>
        let r := lineccpy (len - out.length) packet packet.length
        let w := r.1.length
        let rb2 : osp3_rw_buffer :=
          ⟨packet.drop w ++ rb.buf.drop (packet.length - w), rb.idx, packet.length - w⟩
        if r.2 then .ok (out ++ r.1) ⟨rb2, s2⟩
        else read_line_loop fuel len (out ++ r.1) rb2 s2

/-- `osp3_read_line`: first scan the lookahead buffer for a newline, then
fetch packets until the newline arrives, the destination is exhausted
(`ENOBUFS`), or the transport fails; data past the newline in the final packet
is kept in the lookahead buffer. -/
def osp3_read_line (fuel : Nat) (dev : osp3_device) (len : Nat) : ReadResult :=
  let r := lineccpy len (dev.rbuf.buf.drop dev.rbuf.idx) dev.rbuf.rem
  let w := r.1.length
  let rem2 := dev.rbuf.rem - w
  let idx2 := if rem2 > 0 then dev.rbuf.idx + w else 0
  let rb1 : osp3_rw_buffer := ⟨dev.rbuf.buf, idx2, rem2⟩
  if r.2 then .ok r.1 ⟨rb1, dev.stream⟩
  else read_line_loop fuel len r.1 rb1 dev.stream

/-! ## Derived views of the reader state -/

/-- The bytes an event contributes to the incoming byte stream. -/
def eventBytes : FetchEvent → List Nat
  | .pkt p => p
  | .fail _ => []

/-- All bytes pending in the transport schedule. -/
def streamBytes (s : List FetchEvent) : List Nat := (s.map eventBytes).flatten

/-- The full unconsumed byte stream a device state represents: lookahead
buffer content followed by pending transport bytes. -/
def devBytes (d : osp3_device) : List Nat := rbufValid d ++ streamBytes d.stream

/-- Structural well-formedness of the lookahead buffer (held by every state
the API can produce): the array has its declared 64 bytes and the valid region
lies inside it. -/
def devWF (d : osp3_device) : Prop :=
  d.rbuf.buf.length = 64 ∧ d.rbuf.idx + d.rbuf.rem ≤ 64

instance (d : osp3_device) : Decidable (devWF d) := by
  unfold devWF
  infer_instance

/-- Schedule made only of packet arrivals (no failures or timeouts). -/
def allPkt (s : List FetchEvent) : Prop := ∀ e ∈ s, ∃ p, e = FetchEvent.pkt p

/-- Boolean test for `allPkt`. -/
def isPkt : FetchEvent → Bool
  | .pkt _ => true
  | .fail _ => false

instance (s : List FetchEvent) : Decidable (allPkt s) :=
  decidable_of_iff (s.all isPkt = true)
    (by
      rw [List.all_eq_true]
      constructor
      · intro h e he
        cases e with
        | pkt p => exact ⟨p, rfl⟩
        | fail er => exact absurd (h _ he) (by simp [isPkt])
      · intro h e he
        obtain ⟨p, hp⟩ := h e he
        subst hp
        rfl)

/-- A device with an empty lookahead buffer and the given packet schedule. -/
def freshDev (ps : List (List Nat)) : osp3_device :=
  ⟨⟨List.replicate 64 0, 0, 0⟩, ps.map .pkt⟩


/-! # Helper lemmas: checksum arithmetic -/

theorem checksumLoop_fst (l : List Nat) : ∀ a x, a < 256 →
    (checksumLoop l a x).1 = (a + (l.map u8).sum) % 256 := by
  induction l with
  | nil =>
    intro a x h
    simp [checksumLoop, Nat.mod_eq_of_lt h]
  | cons b t ih =>
    intro a x h
    simp only [checksumLoop, List.map_cons, List.sum_cons]
    rw [ih _ _ (Nat.mod_lt _ (by norm_num))]
    rw [Nat.mod_add_mod, Nat.add_assoc]

theorem checksumLoop_snd (l : List Nat) : ∀ a x,
    (checksumLoop l a x).2 = l.foldl (fun y b => Nat.xor y (u8 b)) x := by
  induction l with
  | nil => intro a x; simp [checksumLoop]
  | cons b t ih => intro a x; simp only [checksumLoop, List.foldl_cons]; rw [ih]

/-- C1 (amended): `osp3_log_checksum_compute` returns the two's-complement
negation of the mod-256 sum of the 74 bytes at offsets 0 through 73 (the bytes
preceding the additive-checksum field), paired with the xor of those same 74
bytes — the spec's byte count of 73 is off by one. -/
theorem c1_amended (log : List Nat) :
    osp3_log_checksum_compute log
      = (specAdditive (checkedBytes log), specXor (checkedBytes log)) := by
  have hle : ((checkedBytes log).map u8).sum % 256 ≤ 255 :=
    Nat.le_of_lt_succ (Nat.mod_lt _ (by norm_num))
  have hfst : (checksumLoop (checkedBytes log) 0 0).1
      = ((checkedBytes log).map u8).sum % 256 := by
    rw [checksumLoop_fst _ 0 0 (by norm_num), Nat.zero_add]
  have hsnd : (checksumLoop (checkedBytes log) 0 0).2
      = (checkedBytes log).foldl (fun y b => Nat.xor y (u8 b)) 0 :=
    checksumLoop_snd _ 0 0
  show ((255 - (checksumLoop (checkedBytes log) 0 0).1 + 1) % 256,
        (checksumLoop (checkedBytes log) 0 0).2) = _
  rw [hfst, hsnd]
  simp only [specAdditive, specXor]
  rw [Prod.mk.injEq]
  refine ⟨by omega, rfl⟩

/-- C1 (counterexample): on the example payload, summing and xoring only 73
bytes (the spec's literal count) yields (0x40, 0x3e), not the (0x14, 0x12)
that `osp3_log_checksum_compute` produces. -/
theorem c1_counterexample :
    spec_checksum_compute_73 exLine ≠ osp3_log_checksum_compute exLine
    ∧ spec_checksum_compute_73 exLine = (64, 62)
    ∧ osp3_log_checksum_compute exLine = (20, 18) := by
  refine ⟨?_, by decide, by decide⟩
  decide

/-- C9: the fixed example line parses to the documented field values
(timestamp 815169 ms, input 15296 mV / 36 mA / 550 mW / off, both channels
zero and off with zero interrupt bits, checksum fields 0x14 and 0x12), the
recomputed checksums are exactly (0x14, 0x12), and checksum verification
reports a match (result 0). -/
theorem c9_example_line :
    osp3_log_parse exLine 81 = .ok exEntry
    ∧ osp3_log_checksum_compute exLine = (20, 18)
    ∧ osp3_log_checksum_test exLine 81 20 18 = .res 0
    ∧ osp3_log_checksum exLine 81 = .res 20 18 0 := by
  refine ⟨by decide, by decide, by decide, by decide⟩

/-! # Helper lemmas: the codec reads only the 79-byte payload -/

theorem getD_eq_of_take_eq {l1 l2 : List Nat} {n : Nat} (h : l1.take n = l2.take n)
    {i : Nat} (hi : i < n) : l1.getD i 0 = l2.getD i 0 := by
  rw [List.getD_eq_getElem?_getD, List.getD_eq_getElem?_getD]
  have h1 : (l1.take n)[i]? = l1[i]? := by rw [List.getElem?_take]; simp [hi]
  have h2 : (l2.take n)[i]? = l2[i]? := by rw [List.getElem?_take]; simp [hi]
  rw [← h1, ← h2, h]

theorem checkedBytes_eq_of_take_eq {l1 l2 : List Nat} (h : l1.take 79 = l2.take 79) :
    checkedBytes l1 = checkedBytes l2 := by
  simp only [checkedBytes]
  apply List.map_congr_left
  intro i hi
  have : i < 74 := List.mem_range.mp hi
  exact getD_eq_of_take_eq h (by omega)

theorem embeddedChecksums_eq_of_take_eq {l1 l2 : List Nat} (h : l1.take 79 = l2.take 79) :
    embeddedChecksums l1 = embeddedChecksums l2 := by
  simp only [embeddedChecksums, CS_2COMPL_OFF, CS_XOR_OFF]
  rw [getD_eq_of_take_eq h (show 74 < 79 by omega),
      getD_eq_of_take_eq h (show 74 + 1 < 79 by omega),
      getD_eq_of_take_eq h (show 77 < 79 by omega),
      getD_eq_of_take_eq h (show 77 + 1 < 79 by omega)]

/-- C2 (counterexample): the codec rejects buffers of the sizes the claim says
it accepts.  The 79-byte terminator-less example payload is refused with
`EINVAL` by all three codec entry points when `log_sz` is 79 (and still at
80); only `log_sz ≥ 81` passes the guard. -/
theorem c2_counterexample :
    osp3_log_parse exPayload79 79 = .err .EINVAL
    ∧ osp3_log_checksum_test exPayload79 79 20 18 = .err .EINVAL
    ∧ osp3_log_checksum exPayload79 79 = .err .EINVAL
    ∧ osp3_log_parse exPayload79 80 = .err .EINVAL := by
  refine ⟨by decide, by decide, by decide, by decide⟩

/-- C2 (amended): the codec operations require `log_sz ≥ 81`
(`OSP3_LOG_PROTOCOL_SIZE`) and reject any smaller declared size (including 78,
79 and 80) as a hard `EINVAL` error; when the size guard passes, the checksum
operations depend only on the first 79 content bytes (trailing bytes such as
`\r\n` or garbage are ignored), and a well-formed 79-byte payload without its
terminator still parses and checksum-matches. -/
theorem c2_amended (log1 log2 : List Nat) (sz a x : Nat) :
    (sz < 81 →
      osp3_log_parse log1 sz = .err .EINVAL
      ∧ osp3_log_checksum_test log1 sz a x = .err .EINVAL
      ∧ osp3_log_checksum log1 sz = .err .EINVAL)
    ∧ (81 ≤ sz → log1.take 79 = log2.take 79 →
      osp3_log_checksum_test log1 sz a x = osp3_log_checksum_test log2 sz a x
      ∧ osp3_log_checksum log1 sz = osp3_log_checksum log2 sz)
    ∧ osp3_log_parse exPayload79 81 = .ok exEntry
    ∧ osp3_log_checksum exPayload79 81 = .res 20 18 0 := by
  refine ⟨?_, ?_, by decide, by decide⟩
  · intro hsz
    refine ⟨?_, ?_, ?_⟩
    · simp only [osp3_log_parse, OSP3_LOG_PROTOCOL_SIZE]
      rw [if_pos hsz]
    · simp only [osp3_log_checksum_test, OSP3_LOG_PROTOCOL_SIZE]
      rw [if_pos hsz]
    · simp only [osp3_log_checksum, OSP3_LOG_PROTOCOL_SIZE]
      rw [if_pos hsz]
  · intro hsz htake
    have hemb := embeddedChecksums_eq_of_take_eq htake
    have hchk := checkedBytes_eq_of_take_eq htake
    have hcomp : osp3_log_checksum_compute log1 = osp3_log_checksum_compute log2 := by
      simp only [osp3_log_checksum_compute]
      rw [hchk]
    constructor
    · simp only [osp3_log_checksum_test]
      rw [hemb]
    · simp only [osp3_log_checksum]
      rw [hcomp]
      simp only [osp3_log_checksum_test]
      rw [hemb]

/-! # Helper lemmas: hex decoding via strtoul -/

theorem hexDigit_ranges {c v : Nat} (h : hexDigit c = some v) :
    (48 ≤ c ∧ c ≤ 57 ∧ v = c - 48) ∨ (97 ≤ c ∧ c ≤ 102 ∧ v = c - 87)
      ∨ (65 ≤ c ∧ c ≤ 70 ∧ v = c - 55) := by
  unfold hexDigit at h
  split_ifs at h with h1 h2 h3
  · simp only [Option.some.injEq] at h
    exact Or.inl ⟨h1.1, h1.2, h.symm⟩
  · simp only [Option.some.injEq] at h
    exact Or.inr (Or.inl ⟨h2.1, h2.2, h.symm⟩)
  · simp only [Option.some.injEq] at h
    exact Or.inr (Or.inr ⟨h3.1, h3.2, h.symm⟩)

theorem digitsRun_two {c1 c2 v1 v2 : Nat} (a : digitVal 16 c1 = some v1)
    (b : digitVal 16 c2 = some v2) (acc : Nat) :
    digitsRun 16 [c1, c2] acc = (acc * 16 + v1) * 16 + v2 := by
  unfold digitsRun
  rw [a]
  show digitsRun 16 [c2] (acc * 16 + v1) = _
  unfold digitsRun
  rw [b]
  show digitsRun 16 [] ((acc * 16 + v1) * 16 + v2) = _
  rfl

theorem strtoul16_u8_hex_pair {c1 c2 v1 v2 : Nat}
    (h1 : hexDigit c1 = some v1) (h2 : hexDigit c2 = some v2) :
    strtoul16_u8 (cstr [c1, c2]) = 16 * v1 + v2 := by
  have r1 := hexDigit_ranges h1
  have r2 := hexDigit_ranges h2
  have hc1 : 48 ≤ c1 ∧ c1 ≤ 102 ∧ v1 ≤ 15 := by
    rcases r1 with ⟨u, u2, u3⟩ | ⟨u, u2, u3⟩ | ⟨u, u2, u3⟩ <;> omega
  have hc2 : 48 ≤ c2 ∧ c2 ≤ 102 ∧ v2 ≤ 15 := by
    rcases r2 with ⟨u, u2, u3⟩ | ⟨u, u2, u3⟩ | ⟨u, u2, u3⟩ <;> omega
  have hx2 : ¬ (c2 = 120 ∨ c2 = 88) := by
    rcases r2 with ⟨u, u2, u3⟩ | ⟨u, u2, u3⟩ | ⟨u, u2, u3⟩ <;> omega
  have hcstr : cstr [c1, c2] = [c1, c2] := by
    simp only [cstr, List.takeWhile]
    have e1 : (c1 != 0) = true := by simp; omega
    have e2 : (c2 != 0) = true := by simp; omega
    rw [e1, e2]
  have hdrop : ([c1, c2] : List Nat).dropWhile isSpaceByte = [c1, c2] := by
    rw [List.dropWhile_cons]
    have hf : isSpaceByte c1 = false := by
      simp [isSpaceByte]
      omega
    rw [hf]
    simp
  rw [hcstr]
  unfold strtoul16_u8
  rw [hdrop]
  show (if c1 = 45 then _ else if c1 = 43 then _ else strtoul16Mag (c1 :: [c2]) % 256) = _
  rw [if_neg (by omega), if_neg (by omega)]
  have hmag : strtoul16Mag [c1, c2] = digitsRun 16 [c1, c2] 0 := by
    simp [strtoul16Mag]
  rw [hmag]
  have d1 : digitVal 16 c1 = some v1 := by
    simp only [digitVal, if_pos rfl]
    exact h1
  have d2 : digitVal 16 c2 = some v2 := by
    simp only [digitVal, if_pos rfl]
    exact h2
  rw [digitsRun_two d1 d2 0]
  rw [Nat.mod_eq_of_lt (by omega)]
  omega

theorem embeddedChecksums_of_hexOK {log : List Nat} (h : hexOK log) :
    embeddedChecksums log = specEmbedded log := by
  obtain ⟨h1, h2, h3, h4⟩ := h
  obtain ⟨v1, hv1⟩ := Option.isSome_iff_exists.mp h1
  obtain ⟨v2, hv2⟩ := Option.isSome_iff_exists.mp h2
  obtain ⟨v3, hv3⟩ := Option.isSome_iff_exists.mp h3
  obtain ⟨v4, hv4⟩ := Option.isSome_iff_exists.mp h4
  unfold embeddedChecksums specEmbedded
  rw [strtoul16_u8_hex_pair hv1 hv2, strtoul16_u8_hex_pair hv3 hv4, hv1, hv2, hv3, hv4]
  simp

theorem checksum_test_ne_err {log : List Nat} {sz a x : Nat} (hsz : 81 ≤ sz) (e : Errno) :
    osp3_log_checksum_test log sz a x ≠ .err e := by
  unfold osp3_log_checksum_test OSP3_LOG_PROTOCOL_SIZE
  rw [if_neg (by omega)]
  split
  · simp
  · simp

/-- C7: for buffers with `log_sz ≥ 81` (and well-formed hex checksum fields),
`osp3_log_checksum_test` returns the match outcome 0 exactly when the claimed
pair equals the hex-decoded embedded checksum pair and the mismatch outcome 1
otherwise — a boolean-like result, not an error — while `log_sz < 81` is the
distinct hard error (-1 with `EINVAL`); `osp3_log_checksum` produces the same
outcome with the recomputed checksums as the claimed values. -/
theorem c7_checksum_outcomes (log : List Nat) (sz a x : Nat) :
    (sz < 81 →
      osp3_log_checksum_test log sz a x = .err .EINVAL
      ∧ osp3_log_checksum log sz = .err .EINVAL)
    ∧ (81 ≤ sz → hexOK log →
      (osp3_log_checksum_test log sz a x = .res 0 ↔ (a, x) = specEmbedded log)
      ∧ (osp3_log_checksum_test log sz a x = .res 1 ↔ (a, x) ≠ specEmbedded log))
    ∧ (81 ≤ sz → ∀ r,
      osp3_log_checksum log sz
          = .res (osp3_log_checksum_compute log).1 (osp3_log_checksum_compute log).2 r
        ↔ osp3_log_checksum_test log sz
            (osp3_log_checksum_compute log).1 (osp3_log_checksum_compute log).2 = .res r) := by
  refine ⟨?_, ?_, ?_⟩
  · intro hsz
    constructor
    · unfold osp3_log_checksum_test OSP3_LOG_PROTOCOL_SIZE
      rw [if_pos (by omega)]
    · unfold osp3_log_checksum OSP3_LOG_PROTOCOL_SIZE
      rw [if_pos (by omega)]
  · intro hsz hhex
    have hemb := embeddedChecksums_of_hexOK hhex
    have hiff : ((a, x) = specEmbedded log)
        ↔ (a = (specEmbedded log).1 ∧ x = (specEmbedded log).2) := by
      rw [Prod.ext_iff]
    unfold osp3_log_checksum_test OSP3_LOG_PROTOCOL_SIZE
    rw [if_neg (by omega), hemb]
    by_cases hc : a = (specEmbedded log).1 ∧ x = (specEmbedded log).2
    · rw [if_pos hc]
      refine ⟨⟨fun _ => hiff.mpr hc, fun _ => rfl⟩, ?_, ?_⟩
      · intro h0
        exact absurd h0 (by simp)
      · intro hne
        exact absurd (hiff.mpr hc) hne
    · rw [if_neg hc]
      refine ⟨⟨?_, ?_⟩, fun _ => fun h => hc (hiff.mp h), fun _ => rfl⟩
      · intro h0
        exact absurd h0 (by simp)
      · intro heq
        exact absurd (hiff.mp heq) hc
  · intro hsz r
    unfold osp3_log_checksum OSP3_LOG_PROTOCOL_SIZE
    rw [if_neg (by omega)]
    cases htest : osp3_log_checksum_test log sz
        (osp3_log_checksum_compute log).1 (osp3_log_checksum_compute log).2 with
    | err e => exact absurd htest (checksum_test_ne_err hsz e)
    | res r2 => simp

/-- C7 (witness): applied to the example line. -/
theorem c7_checksum_outcomes_witness :
    osp3_log_checksum_test exLine 81 20 18 = .res 0
    ∧ osp3_log_checksum_test exLine 81 21 18 = .res 1
    ∧ osp3_log_checksum exPayload79 79 = .err .EINVAL :=
  ⟨((c7_checksum_outcomes exLine 81 20 18).2.1 (by omega) (by decide)).1.mpr (by decide),
   ((c7_checksum_outcomes exLine 81 21 18).2.1 (by omega) (by decide)).2.mpr (by decide),
   ((c7_checksum_outcomes exPayload79 79 20 18).1 (by omega)).2⟩

/-! # Helper lemmas: the strict layout refines the sscanf scan -/

/-- Directive sanity conditions for the bridge between the strict layout and
the `sscanf` interpreter (all hold for `logFmt`): literals are printable
non-digit separators, numeric fields are decimal, or hexadecimal of width at
most 2, positive width, and fit the destination type. -/
def dirOKB : ScanDir → Bool
  | .num b w bits =>
    decide (0 < w) && (decide (b = 10) || (decide (b = 16) && decide (w ≤ 2)))
      && decide (b ^ w ≤ 2 ^ bits)
  | .numU b bits => decide (b = 16) && decide (b ^ 2 ≤ 2 ^ bits)
  | .lit c => decide (44 ≤ c) && (digitVal 16 c).isNone
  | .wsp => true

/-- After the first whitespace directive, only whitespace directives remain. -/
def wspClosedB : List ScanDir → Bool
  | [] => true
  | ScanDir.wsp :: ds => ds.all (fun d => decide (d = ScanDir.wsp))
  | ScanDir.lit _ :: ds => wspClosedB ds
  | ScanDir.num _ _ _ :: ds => wspClosedB ds
  | ScanDir.numU _ _ :: ds => wspClosedB ds

/-- The directive list starts with a literal, a whitespace directive, or
nothing — anything but another conversion. -/
def headSepB : List ScanDir → Bool
  | [] => true
  | ScanDir.lit _ :: _ => true
  | ScanDir.wsp :: _ => true
  | _ => false

/-- Every width-less conversion is followed by a literal, a whitespace
directive, or the end of the format (so under the strict layout something
other than a digit bounds its run). -/
def numUClosedB : List ScanDir → Bool
  | [] => true
  | ScanDir.numU _ _ :: ds => headSepB ds && numUClosedB ds
  | _ :: ds => numUClosedB ds

/-- Number of conversions the strict interpretation performs. -/
def numCount : List ScanDir → Nat
  | [] => 0
  | ScanDir.wsp :: _ => 0
  | ScanDir.lit _ :: ds => numCount ds
  | ScanDir.num _ _ _ :: ds => numCount ds + 1
  | ScanDir.numU _ _ :: ds => numCount ds + 1

theorem digitVal_facts {b c d : Nat} (h : digitVal b c = some d) (hb : b = 10 ∨ b = 16) :
    48 ≤ c ∧ d < b := by
  rcases hb with hb | hb
  · subst hb
    unfold digitVal decDigit at h
    rw [if_neg (by omega)] at h
    split_ifs at h with h1
    simp only [Option.some.injEq] at h
    omega
  · subst hb
    unfold digitVal at h
    rw [if_pos rfl] at h
    have := hexDigit_ranges h
    rcases this with ⟨u, u2, u3⟩ | ⟨u, u2, u3⟩ | ⟨u, u2, u3⟩ <;> omega

theorem digitsRun_cons {b c : Nat} {t : List Nat} {acc d : Nat} (hd : digitVal b c = some d) :
    digitsRun b (c :: t) acc = digitsRun b t (acc * b + d) := by
  show (match digitVal b c with
    | some d2 => digitsRun b t (acc * b + d2)
    | none => acc) = digitsRun b t (acc * b + d)
  rw [hd]

theorem digitsRun_lt {b : Nat} (hb : b = 10 ∨ b = 16) :
    ∀ (ds : List Nat) (acc : Nat), (∀ c ∈ ds, (digitVal b c).isSome) →
    digitsRun b ds acc < (acc + 1) * b ^ ds.length := by
  intro ds
  induction ds with
  | nil =>
    intro acc hall
    simp [digitsRun]
  | cons c t ih =>
    intro acc hall
    obtain ⟨d, hd⟩ := Option.isSome_iff_exists.mp (hall c (by simp))
    have hdb := (digitVal_facts hd hb).2
    unfold digitsRun
    rw [hd]
    show digitsRun b t (acc * b + d) < _
    have hstep := ih (acc * b + d) (fun c2 hc2 => hall c2 (by simp [hc2]))
    have hpow : (acc * b + d + 1) * b ^ t.length ≤ (acc + 1) * b ^ (t.length + 1) := by
      rw [pow_succ]
      have h1 : acc * b + d + 1 ≤ (acc + 1) * b := by
        have : d + 1 ≤ b := hdb
        calc acc * b + d + 1 ≤ acc * b + b := by omega
          _ = (acc + 1) * b := by ring
      calc (acc * b + d + 1) * b ^ t.length ≤ ((acc + 1) * b) * b ^ t.length :=
            Nat.mul_le_mul_right _ h1
        _ = (acc + 1) * (b ^ t.length * b) := by ring
    calc digitsRun b t (acc * b + d) < (acc * b + d + 1) * b ^ t.length := hstep
      _ ≤ (acc + 1) * b ^ (t.length + 1) := hpow
      _ = (acc + 1) * b ^ (c :: t).length := by rw [List.length_cons]

theorem scanDigits_append {b : Nat} :
    ∀ (ds rest : List Nat) (acc : Nat), (∀ c ∈ ds, (digitVal b c).isSome) →
    scanDigits b ds.length (ds ++ rest) acc = (digitsRun b ds acc, rest) := by
  intro ds
  induction ds with
  | nil =>
    intro rest acc hall
    simp [scanDigits, digitsRun]
  | cons c t ih =>
    intro rest acc hall
    obtain ⟨d, hd⟩ := Option.isSome_iff_exists.mp (hall c (by simp))
    show scanDigits b (t.length + 1) (c :: (t ++ rest)) acc = _
    unfold scanDigits
    rw [hd]
    show scanDigits b t.length (t ++ rest) (acc * b + d) = _
    rw [ih rest (acc * b + d) (fun c2 hc2 => hall c2 (by simp [hc2])), digitsRun_cons hd]

theorem scanNumCore_digits {b w bits c : Nat} {t : List Nat}
    (hbw : b = 10 ∨ (b = 16 ∧ w ≤ 2)) (hd : (digitVal b c).isSome) (hw : 0 < w) :
    scanNumCore b w bits false (c :: t)
      = .conv ((scanDigits b w (c :: t) 0).1 % 2 ^ bits) (scanDigits b w (c :: t) 0).2 := by
  unfold scanNumCore
  have hpfx : (match c :: t with
      | c2 :: x :: t2 =>
        if c2 = 48 ∧ b = 16 ∧ (x = 120 ∨ x = 88) ∧ 3 ≤ w ∧ ((t2.head?.bind (digitVal 16)).isSome)
        then (t2, w - 2)
        else (c2 :: x :: t2, w)
      | _ => (c :: t, w)) = (c :: t, w) := by
    cases t with
    | nil => rfl
    | cons x t2 =>
      show (if c = 48 ∧ b = 16 ∧ (x = 120 ∨ x = 88) ∧ 3 ≤ w
          ∧ ((t2.head?.bind (digitVal 16)).isSome = true) then (t2, w - 2)
          else (c :: x :: t2, w)) = _
      rw [if_neg]
      rintro ⟨-, hb16, -, hw3, -⟩
      rcases hbw with hb | ⟨-, hwle⟩
      · omega
      · omega
  rw [hpfx]
  have hguard : 0 < (c :: t, w).2 ∧ (((c :: t, w).1.head?.bind (digitVal b)).isSome = true) := by
    refine ⟨hw, ?_⟩
    simp only [List.head?_cons, Option.some_bind]
    exact hd
  rw [if_pos hguard]
  simp

theorem scanNum_strict {b w bits : Nat} {ds rest : List Nat}
    (hlen : ds.length = w) (hw : 0 < w)
    (hall : ∀ c ∈ ds, (digitVal b c).isSome)
    (hbw : b = 10 ∨ (b = 16 ∧ w ≤ 2)) (hpow : b ^ w ≤ 2 ^ bits) :
    scanNum b w bits (ds ++ rest) = .conv (digitsRun b ds 0) rest := by
  have hb : b = 10 ∨ b = 16 := by
    rcases hbw with h | ⟨h, h2⟩
    · exact Or.inl h
    · exact Or.inr h
  cases ds with
  | nil =>
    rw [List.length_nil] at hlen
    omega
  | cons c t =>
    obtain ⟨d, hd⟩ := Option.isSome_iff_exists.mp (hall c (by simp))
    have hc48 := (digitVal_facts hd hb).1
    have hdrop : ((c :: t) ++ rest).dropWhile isSpaceByte = c :: (t ++ rest) := by
      rw [List.cons_append, List.dropWhile_cons]
      have hf : isSpaceByte c = false := by
        simp [isSpaceByte]
        omega
      rw [hf]
      simp
    unfold scanNum
    rw [hdrop]
    show (if c = 45 then scanNumCore b (w - 1) bits true (t ++ rest)
      else if c = 43 then scanNumCore b (w - 1) bits false (t ++ rest)
      else scanNumCore b w bits false (c :: (t ++ rest))) = _
    rw [if_neg (by omega), if_neg (by omega)]
    rw [scanNumCore_digits hbw (Option.isSome_iff_exists.mpr ⟨d, hd⟩) hw]
    have hsd : scanDigits b w (c :: (t ++ rest)) 0 = (digitsRun b (c :: t) 0, rest) := by
      rw [← hlen, ← List.cons_append]
      exact scanDigits_append (c :: t) rest 0 hall
    rw [hsd]
    have hlt : digitsRun b (c :: t) 0 < 2 ^ bits := by
      have h1 := digitsRun_lt hb (c :: t) 0 hall
      calc digitsRun b (c :: t) 0 < (0 + 1) * b ^ (c :: t).length := h1
        _ = b ^ w := by rw [hlen]; ring
        _ ≤ 2 ^ bits := hpow
    rw [Nat.mod_eq_of_lt hlt]

theorem digitVal_ne_xX {b c d : Nat} (h : digitVal b c = some d) (hb : b = 10 ∨ b = 16) :
    ¬(c = 120 ∨ c = 88) := by
  rcases hb with hb | hb
  · subst hb
    unfold digitVal decDigit at h
    rw [if_neg (by omega)] at h
    split_ifs at h with h1
    omega
  · subst hb
    unfold digitVal at h
    rw [if_pos rfl] at h
    have := hexDigit_ranges h
    rcases this with ⟨u, u2, u3⟩ | ⟨u, u2, u3⟩ | ⟨u, u2, u3⟩ <;> omega

theorem scanDigitsU_append {b : Nat} :
    ∀ (ds rest : List Nat) (acc : Nat), (∀ c ∈ ds, (digitVal b c).isSome) →
    (rest = [] ∨ ∃ c t3, rest = c :: t3 ∧ digitVal b c = none) →
    scanDigitsU b (ds ++ rest) acc = (digitsRun b ds acc, rest) := by
  intro ds
  induction ds with
  | nil =>
    intro rest acc hall hrest
    rcases hrest with hr | ⟨c, t3, hr, hc⟩
    · subst hr
      rfl
    · subst hr
      show (match digitVal b c with
        | some d => scanDigitsU b t3 (acc * b + d)
        | none => (acc, c :: t3)) = (acc, c :: t3)
      rw [hc]
  | cons c t ih =>
    intro rest acc hall hrest
    obtain ⟨d, hd⟩ := Option.isSome_iff_exists.mp (hall c (by simp))
    show (match digitVal b c with
      | some d2 => scanDigitsU b (t ++ rest) (acc * b + d2)
      | none => (acc, c :: (t ++ rest))) = _
    rw [hd]
    show scanDigitsU b (t ++ rest) (acc * b + d) = (digitsRun b (c :: t) acc, rest)
    rw [ih rest (acc * b + d) (fun c2 hc2 => hall c2 (by simp [hc2])) hrest,
      digitsRun_cons hd]

theorem scanNumCoreU_digits {b bits d1 d2 : Nat} {rest : List Nat}
    (hb : b = 10 ∨ b = 16)
    (hd : (digitVal b d1).isSome) (hd2 : (digitVal b d2).isSome) :
    scanNumCoreU b bits false (d1 :: d2 :: rest)
      = .conv ((scanDigitsU b (d1 :: d2 :: rest) 0).1 % 2 ^ bits)
          (scanDigitsU b (d1 :: d2 :: rest) 0).2 := by
  obtain ⟨v2, hv2⟩ := Option.isSome_iff_exists.mp hd2
  have hnx := digitVal_ne_xX hv2 hb
  unfold scanNumCoreU
  have hpfx : (match d1 :: d2 :: rest with
      | c :: x :: t =>
        if c = 48 ∧ b = 16 ∧ (x = 120 ∨ x = 88) ∧ ((t.head?.bind (digitVal 16)).isSome)
        then t
        else c :: x :: t
      | _ => d1 :: d2 :: rest) = d1 :: d2 :: rest := by
    show (if d1 = 48 ∧ b = 16 ∧ (d2 = 120 ∨ d2 = 88)
        ∧ ((rest.head?.bind (digitVal 16)).isSome = true)
        then rest else d1 :: d2 :: rest) = _
    rw [if_neg]
    rintro ⟨-, -, hx, -⟩
    exact hnx hx
  rw [hpfx]
  have hguard : (((d1 :: d2 :: rest).head?.bind (digitVal b)).isSome = true) := by
    simp only [List.head?_cons, Option.some_bind]
    exact hd
  rw [if_pos hguard]
  simp

theorem scanNumU_strict {b bits d1 d2 : Nat} {rest : List Nat}
    (h1 : (digitVal b d1).isSome) (h2 : (digitVal b d2).isSome)
    (hb : b = 10 ∨ b = 16) (hpow : b ^ 2 ≤ 2 ^ bits)
    (hrest : rest = [] ∨ ∃ c t3, rest = c :: t3 ∧ digitVal b c = none) :
    scanNumU b bits (d1 :: d2 :: rest) = .conv (digitsRun b [d1, d2] 0) rest := by
  obtain ⟨v1, hv1⟩ := Option.isSome_iff_exists.mp h1
  have hc48 := (digitVal_facts hv1 hb).1
  have hdrop : (d1 :: d2 :: rest).dropWhile isSpaceByte = d1 :: d2 :: rest := by
    rw [List.dropWhile_cons]
    have hf : isSpaceByte d1 = false := by
      simp [isSpaceByte]
      omega
    rw [hf]
    simp
  unfold scanNumU
  rw [hdrop]
  show (if d1 = 45 then scanNumCoreU b bits true (d2 :: rest)
    else if d1 = 43 then scanNumCoreU b bits false (d2 :: rest)
    else scanNumCoreU b bits false (d1 :: d2 :: rest)) = _
  rw [if_neg (by omega), if_neg (by omega)]
  rw [scanNumCoreU_digits hb h1 h2]
  have hall2 : ∀ c ∈ [d1, d2], (digitVal b c).isSome := by
    intro c hc
    rcases List.mem_cons.mp hc with h | h
    · subst h
      exact h1
    · rcases List.mem_cons.mp h with h' | h'
      · subst h'
        exact h2
      · simp at h'
  have hsd : scanDigitsU b (d1 :: d2 :: rest) 0 = (digitsRun b [d1, d2] 0, rest) := by
    show scanDigitsU b ([d1, d2] ++ rest) 0 = _
    exact scanDigitsU_append [d1, d2] rest 0 hall2 hrest
  rw [hsd]
  have hlt : digitsRun b [d1, d2] 0 < 2 ^ bits := by
    have hlt1 := digitsRun_lt hb [d1, d2] 0 hall2
    calc digitsRun b [d1, d2] 0 < (0 + 1) * b ^ ([d1, d2] : List Nat).length := hlt1
      _ = b ^ 2 := by norm_num
      _ ≤ 2 ^ bits := hpow
  rw [Nat.mod_eq_of_lt hlt]

theorem runDirs_allWsp : ∀ (ds : List ScanDir), (∀ d ∈ ds, d = ScanDir.wsp) →
    ∀ (l : List Nat) (m : Nat) (acc : List Nat), runDirs ds l m acc = (m, acc) := by
  intro ds
  induction ds with
  | nil =>
    intro h l m acc
    rfl
  | cons d t ih =>
    intro h l m acc
    have hd : d = ScanDir.wsp := h d (by simp)
    subst hd
    show runDirs (ScanDir.wsp :: t) l m acc = (m, acc)
    unfold runDirs
    exact ih (fun d2 h2 => h d2 (by simp [h2])) _ m acc

theorem specRun_nil_inv {l vs used rest : List Nat}
    (h : specRun [] l = some (vs, used, rest)) :
    vs = [] ∧ used = [] ∧ rest = l := by
  replace h : some (([] : List Nat), ([] : List Nat), l) = some (vs, used, rest) := h
  simp only [Option.some.injEq, Prod.mk.injEq] at h
  exact ⟨h.1.symm, h.2.1.symm, h.2.2.symm⟩

theorem specRun_wsp_inv {ds : List ScanDir} {l vs used rest : List Nat}
    (h : specRun (ScanDir.wsp :: ds) l = some (vs, used, rest)) :
    vs = [] ∧ used = [] ∧ rest = l := by
  replace h : some (([] : List Nat), ([] : List Nat), l) = some (vs, used, rest) := h
  simp only [Option.some.injEq, Prod.mk.injEq] at h
  exact ⟨h.1.symm, h.2.1.symm, h.2.2.symm⟩

theorem specRun_lit_inv {c : Nat} {ds : List ScanDir} {l vs used rest : List Nat}
    (h : specRun (ScanDir.lit c :: ds) l = some (vs, used, rest)) :
    ∃ t2 used2, l = c :: t2 ∧ specRun ds t2 = some (vs, used2, rest) ∧ used = c :: used2 := by
  cases l with
  | nil =>
    replace h : (none : Option (List Nat × List Nat × List Nat)) = some (vs, used, rest) := h
    exact absurd h (by simp)
  | cons c2 t2 =>
    replace h : (if c2 = c then
        (match specRun ds t2 with
          | some (vs, used, rest) => some (vs, c2 :: used, rest)
          | none => none)
        else none) = some (vs, used, rest) := h
    by_cases hc : c2 = c
    · rw [if_pos hc] at h
      cases hs : specRun ds t2 with
      | none =>
        rw [hs] at h
        simp at h
      | some out =>
        obtain ⟨vs2, used2, rest2⟩ := out
        rw [hs] at h
        replace h : some (vs2, c2 :: used2, rest2) = some (vs, used, rest) := h
        simp only [Option.some.injEq, Prod.mk.injEq] at h
        obtain ⟨hv, hu, hr⟩ := h
        subst hc
        refine ⟨t2, used2, rfl, ?_, hu.symm⟩
        rw [hv, hr] at hs
        exact hs
    · rw [if_neg hc] at h
      simp at h

theorem specRun_num_inv {b w bits : Nat} {ds : List ScanDir} {l vs used rest : List Nat}
    (h : specRun (ScanDir.num b w bits :: ds) l = some (vs, used, rest)) :
    ∃ v t2 vs2 used2, readFixed b w l = some (v, t2)
      ∧ specRun ds t2 = some (vs2, used2, rest)
      ∧ vs = v :: vs2 ∧ used = l.take w ++ used2 := by
  replace h : (match readFixed b w l with
      | some (v, t) =>
        (match specRun ds t with
          | some (vs, used, rest) => some (v :: vs, l.take w ++ used, rest)
          | none => none)
      | none => none) = some (vs, used, rest) := h
  cases hr : readFixed b w l with
  | none =>
    rw [hr] at h
    simp at h
  | some vt =>
    obtain ⟨v, t2⟩ := vt
    rw [hr] at h
    replace h : (match specRun ds t2 with
        | some (vs, used, rest) => some (v :: vs, l.take w ++ used, rest)
        | none => none) = some (vs, used, rest) := h
    cases hs : specRun ds t2 with
    | none =>
      rw [hs] at h
      simp at h
    | some out =>
      obtain ⟨vs2, used2, rest2⟩ := out
      rw [hs] at h
      replace h : some (v :: vs2, l.take w ++ used2, rest2) = some (vs, used, rest) := h
      simp only [Option.some.injEq, Prod.mk.injEq] at h
      obtain ⟨hv, hu, hr2⟩ := h
      refine ⟨v, t2, vs2, used2, rfl, ?_, hv.symm, hu.symm⟩
      rw [hr2] at hs
      exact hs

theorem specRun_numU_inv {b bits : Nat} {ds : List ScanDir} {l vs used rest : List Nat}
    (h : specRun (ScanDir.numU b bits :: ds) l = some (vs, used, rest)) :
    ∃ v t2 vs2 used2, readFixed b 2 l = some (v, t2)
      ∧ specRun ds t2 = some (vs2, used2, rest)
      ∧ vs = v :: vs2 ∧ used = l.take 2 ++ used2 := by
  replace h : (match readFixed b 2 l with
      | some (v, t) =>
        (match specRun ds t with
          | some (vs, used, rest) => some (v :: vs, l.take 2 ++ used, rest)
          | none => none)
      | none => none) = some (vs, used, rest) := h
  cases hr : readFixed b 2 l with
  | none =>
    rw [hr] at h
    simp at h
  | some vt =>
    obtain ⟨v, t2⟩ := vt
    rw [hr] at h
    replace h : (match specRun ds t2 with
        | some (vs, used, rest) => some (v :: vs, l.take 2 ++ used, rest)
        | none => none) = some (vs, used, rest) := h
    cases hs : specRun ds t2 with
    | none =>
      rw [hs] at h
      simp at h
    | some out =>
      obtain ⟨vs2, used2, rest2⟩ := out
      rw [hs] at h
      replace h : some (v :: vs2, l.take 2 ++ used2, rest2) = some (vs, used, rest) := h
      simp only [Option.some.injEq, Prod.mk.injEq] at h
      obtain ⟨hv, hu, hr2⟩ := h
      refine ⟨v, t2, vs2, used2, rfl, ?_, hv.symm, hu.symm⟩
      rw [hr2] at hs
      exact hs

theorem readFixed_inv {b w : Nat} {l : List Nat} {v : Nat} {t : List Nat}
    (h : readFixed b w l = some (v, t)) :
    (l.take w).length = w ∧ (∀ c ∈ l.take w, (digitVal b c).isSome)
      ∧ v = digitsRun b (l.take w) 0 ∧ t = l.drop w := by
  replace h : (if (l.take w).length = w ∧ (((l.take w).all fun c => (digitVal b c).isSome) = true)
      then some (digitsRun b (l.take w) 0, l.drop w) else none) = some (v, t) := h
  split_ifs at h with hcond
  · simp only [Option.some.injEq, Prod.mk.injEq] at h
    refine ⟨hcond.1, ?_, h.1.symm, h.2.symm⟩
    intro c hc
    have := List.all_eq_true.mp hcond.2 c hc
    simpa using this

theorem specRun_len : ∀ (ds : List ScanDir) (l vs used rest : List Nat),
    specRun ds l = some (vs, used, rest) → vs.length = numCount ds := by
  intro ds
  induction ds with
  | nil =>
    intro l vs used rest h
    rw [(specRun_nil_inv h).1]
    rfl
  | cons d t ih =>
    intro l vs used rest h
    cases d with
    | wsp =>
      rw [(specRun_wsp_inv h).1]
      rfl
    | lit c =>
      obtain ⟨t2, used2, hl, hs, hu⟩ := specRun_lit_inv h
      show vs.length = numCount t
      exact ih t2 vs used2 rest hs
    | num b w bits =>
      obtain ⟨v, t2, vs2, used2, hr, hs, hv, hu⟩ := specRun_num_inv h
      subst hv
      show (v :: vs2).length = numCount t + 1
      rw [List.length_cons]
      rw [ih t2 vs2 used2 rest hs]
    | numU b bits =>
      obtain ⟨v, t2, vs2, used2, hr, hs, hv, hu⟩ := specRun_numU_inv h
      subst hv
      show (v :: vs2).length = numCount t + 1
      rw [List.length_cons]
      rw [ih t2 vs2 used2 rest hs]

theorem cstr_append : ∀ (l1 l2 : List Nat), (∀ c ∈ l1, c ≠ 0) →
    cstr (l1 ++ l2) = l1 ++ cstr l2 := by
  intro l1
  induction l1 with
  | nil =>
    intro l2 h
    simp
  | cons c t ih =>
    intro l2 h
    simp only [cstr, List.cons_append, List.takeWhile_cons]
    have hc : (c != 0) = true := by
      simp only [bne_iff_ne, ne_eq]
      exact h c (by simp)
    rw [hc]
    simp only [if_true]
    have iht := ih l2 (fun c2 h2 => h c2 (by simp [h2]))
    simp only [cstr] at iht
    rw [iht]

theorem specRun_bridge : ∀ (ds : List ScanDir) (l vs used rest : List Nat),
    ds.all dirOKB = true → wspClosedB ds = true → numUClosedB ds = true →
    specRun ds l = some (vs, used, rest) →
    l = used ++ rest ∧ (∀ c ∈ used, 44 ≤ c)
      ∧ (∀ (rest2 : List Nat) (m : Nat) (acc : List Nat),
          (rest2 = [] ∨ ∃ c t3, rest2 = c :: t3 ∧ digitVal 16 c = none) →
          runDirs ds (used ++ rest2) m acc = (m + vs.length, acc ++ vs)) := by
  intro ds
  induction ds with
  | nil =>
    intro l vs used rest hok hwc hnuc h
    obtain ⟨hv, hu, hr⟩ := specRun_nil_inv h
    subst hv
    subst hu
    subst hr
    refine ⟨rfl, by simp, ?_⟩
    intro rest2 m acc hrest2
    show (m, acc) = (m + List.length [], acc ++ [])
    simp
  | cons d t ih =>
    intro l vs used rest hok hwc hnuc h
    rw [List.all_cons, Bool.and_eq_true] at hok
    obtain ⟨hokd, hokt⟩ := hok
    cases d with
    | wsp =>
      obtain ⟨hv, hu, hr⟩ := specRun_wsp_inv h
      subst hv
      subst hu
      subst hr
      have hwc2 : (t.all fun d => decide (d = ScanDir.wsp)) = true := hwc
      have hallwsp : ∀ d2 ∈ t, d2 = ScanDir.wsp := by
        intro d2 hd2
        have := List.all_eq_true.mp hwc2 d2 hd2
        simpa using this
      refine ⟨rfl, by simp, ?_⟩
      intro rest2 m acc hrest2
      show runDirs (ScanDir.wsp :: t) ([] ++ rest2) m acc = (m + List.length [], acc ++ [])
      unfold runDirs
      rw [runDirs_allWsp t hallwsp]
      simp
    | lit c =>
      obtain ⟨t2, used2, hl, hs, hu⟩ := specRun_lit_inv h
      subst hl
      subst hu
      simp only [dirOKB, Bool.and_eq_true, decide_eq_true_eq] at hokd
      have hc44 : 44 ≤ c := hokd.1
      have hwct : wspClosedB t = true := hwc
      have hnut : numUClosedB t = true := hnuc
      obtain ⟨ihl, ihm, ihr⟩ := ih t2 vs used2 rest hokt hwct hnut hs
      refine ⟨?_, ?_, ?_⟩
      · rw [List.cons_append, ← ihl]
      · intro c2 hc2
        rcases List.mem_cons.mp hc2 with h1 | h1
        · omega
        · exact ihm c2 h1
      · intro rest2 m acc hrest2
        show (if c = c then runDirs t (used2 ++ rest2) m acc else (m, acc)) = _
        rw [if_pos rfl]
        exact ihr rest2 m acc hrest2
    | num b w bits =>
      obtain ⟨v, t2, vs2, used2, hr, hs, hv, hu⟩ := specRun_num_inv h
      subst hv
      subst hu
      obtain ⟨hlen, hdig, hval, ht2⟩ := readFixed_inv hr
      simp only [dirOKB, Bool.and_eq_true, Bool.or_eq_true, decide_eq_true_eq] at hokd
      obtain ⟨⟨hw, hbw0⟩, hpow⟩ := hokd
      have hbw : b = 10 ∨ (b = 16 ∧ w ≤ 2) := by
        rcases hbw0 with h1 | ⟨h1, h2⟩
        · exact Or.inl h1
        · exact Or.inr ⟨h1, h2⟩
      have hb : b = 10 ∨ b = 16 := by
        rcases hbw with h1 | ⟨h1, h2⟩
        · exact Or.inl h1
        · exact Or.inr h1
      have hwct : wspClosedB t = true := hwc
      have hnut : numUClosedB t = true := hnuc
      obtain ⟨ihl, ihm, ihr⟩ := ih t2 vs2 used2 rest hokt hwct hnut hs
      have hdrop2 : l.drop w = used2 ++ rest := by
        rw [← ht2]
        exact ihl
      refine ⟨?_, ?_, ?_⟩
      · conv_lhs => rw [← List.take_append_drop w l]
        rw [hdrop2, List.append_assoc]
      · intro c2 hc2
        rcases List.mem_append.mp hc2 with h1 | h1
        · obtain ⟨dd, hdd⟩ := Option.isSome_iff_exists.mp (hdig c2 h1)
          have := (digitVal_facts hdd hb).1
          omega
        · exact ihm c2 h1
      · intro rest2 m acc hrest2
        rw [List.append_assoc]
        have hscan : scanNum b w bits (l.take w ++ (used2 ++ rest2)) = .conv v (used2 ++ rest2) := by
          rw [hval]
          exact scanNum_strict hlen hw hdig hbw hpow
        show (match scanNum b w bits (l.take w ++ (used2 ++ rest2)) with
          | ConvOut.conv v2 rest3 => runDirs t rest3 (m + 1) (acc ++ [v2])
          | _ => (m, acc)) = _
        rw [hscan]
        show runDirs t (used2 ++ rest2) (m + 1) (acc ++ [v])
          = (m + (v :: vs2).length, acc ++ v :: vs2)
        rw [ihr rest2 (m + 1) (acc ++ [v]) hrest2]
        rw [Prod.mk.injEq]
        constructor
        · rw [List.length_cons]
          omega
        · simp
    | numU b bits =>
      obtain ⟨v, t2, vs2, used2, hr, hs, hv, hu⟩ := specRun_numU_inv h
      subst hv
      subst hu
      obtain ⟨hlen, hdig, hval, ht2⟩ := readFixed_inv hr
      simp only [dirOKB, Bool.and_eq_true, decide_eq_true_eq] at hokd
      obtain ⟨hb16, hpow⟩ := hokd
      have hb : b = 10 ∨ b = 16 := Or.inr hb16
      have hwct : wspClosedB t = true := hwc
      replace hnuc : (headSepB t && numUClosedB t) = true := hnuc
      rw [Bool.and_eq_true] at hnuc
      obtain ⟨hshape, hnut⟩ := hnuc
      obtain ⟨ihl, ihm, ihr⟩ := ih t2 vs2 used2 rest hokt hwct hnut hs
      have hdrop2 : l.drop 2 = used2 ++ rest := by
        rw [← ht2]
        exact ihl
      obtain ⟨d1, d2, htk⟩ : ∃ d1 d2, l.take 2 = [d1, d2] := by
        cases hlk : l.take 2 with
        | nil =>
          rw [hlk] at hlen
          simp at hlen
        | cons a as =>
          cases as with
          | nil =>
            rw [hlk] at hlen
            simp at hlen
          | cons a2 as2 =>
            cases as2 with
            | nil => exact ⟨a, a2, rfl⟩
            | cons a3 as3 =>
              rw [hlk] at hlen
              simp at hlen
      refine ⟨?_, ?_, ?_⟩
      · conv_lhs => rw [← List.take_append_drop 2 l]
        rw [hdrop2, List.append_assoc]
      · intro c2 hc2
        rcases List.mem_append.mp hc2 with h1 | h1
        · obtain ⟨dd, hdd⟩ := Option.isSome_iff_exists.mp (hdig c2 h1)
          have := (digitVal_facts hdd hb).1
          omega
        · exact ihm c2 h1
      · intro rest2 m acc hrest2
        have hcont : used2 ++ rest2 = []
            ∨ ∃ c t3, used2 ++ rest2 = c :: t3 ∧ digitVal b c = none := by
          rw [hb16]
          cases t with
          | nil =>
            obtain ⟨hv2, hu2, hr2⟩ := specRun_nil_inv hs
            subst hu2
            simpa using hrest2
          | cons dh t2h =>
            cases dh with
            | lit c =>
              obtain ⟨t3, used3, hl3, hs3, hu3⟩ := specRun_lit_inv hs
              subst hu3
              have hokd2 := List.all_eq_true.mp hokt (ScanDir.lit c) (by simp)
              simp only [dirOKB, Bool.and_eq_true] at hokd2
              exact Or.inr ⟨c, used3 ++ rest2, by simp,
                Option.isNone_iff_eq_none.mp hokd2.2⟩
            | wsp =>
              obtain ⟨hv2, hu2, hr2⟩ := specRun_wsp_inv hs
              subst hu2
              simpa using hrest2
            | num b2 w2 bits2 =>
              replace hshape : false = true := hshape
              exact absurd hshape (by simp)
            | numU b2 bits2 =>
              replace hshape : false = true := hshape
              exact absurd hshape (by simp)
        rw [List.append_assoc]
        have hscan : scanNumU b bits (l.take 2 ++ (used2 ++ rest2))
            = .conv v (used2 ++ rest2) := by
          rw [htk, hval, htk]
          show scanNumU b bits (d1 :: d2 :: (used2 ++ rest2))
            = ConvOut.conv (digitsRun b [d1, d2] 0) (used2 ++ rest2)
          have hm1 : (digitVal b d1).isSome := hdig d1 (by rw [htk]; simp)
          have hm2 : (digitVal b d2).isSome := hdig d2 (by rw [htk]; simp)
          rcases hcont with hc0 | ⟨c, t3, hc1, hcn⟩
          · rw [hc0]
            exact scanNumU_strict hm1 hm2 hb hpow (Or.inl rfl)
          · rw [hc1]
            exact scanNumU_strict hm1 hm2 hb hpow (Or.inr ⟨c, t3, rfl, hcn⟩)
        show (match scanNumU b bits (l.take 2 ++ (used2 ++ rest2)) with
          | ConvOut.conv v2 rest3 => runDirs t rest3 (m + 1) (acc ++ [v2])
          | _ => (m, acc)) = _
        rw [hscan]
        show runDirs t (used2 ++ rest2) (m + 1) (acc ++ [v])
          = (m + (v :: vs2).length, acc ++ v :: vs2)
        rw [ihr rest2 (m + 1) (acc ++ [v]) hrest2]
        rw [Prod.mk.injEq]
        constructor
        · rw [List.length_cons]
          omega
        · simp

/-- The example line with the first additive-checksum hex digit changed from 1
to 2 (byte 74: ASCII 49 → 50). -/
def exLineBadCs : List Nat := exLine.take 74 ++ [50] ++ exLine.drop 75

/-- The entry the mutated line parses to: only the recorded additive checksum
field differs (0x24 = 36). -/
def exEntryBadCs : osp3_log_entry :=
  ⟨815169, 15296, 36, 550, 0, 0, 0, 0, 0, 0, 0, 0, 0, 0, 0, 36, 18⟩

theorem spec_strict_parse_inv {log : List Nat} {e : osp3_log_entry}
    (h : spec_strict_parse log = some e) :
    ∃ vs used rest, specRun logFmt log = some (vs, used, rest)
      ∧ (rest = [] ∨ rest.head? = some 13) ∧ e = entryOfVals vs := by
  replace h : (match specRun logFmt log with
      | some (vs, _, rest) =>
        if rest = [] ∨ rest.head? = some 13 then some (entryOfVals vs) else none
      | none => none) = some e := h
  cases hs : specRun logFmt log with
  | none =>
    rw [hs] at h
    simp at h
  | some out =>
    obtain ⟨vs, used, rest⟩ := out
    rw [hs] at h
    replace h : (if rest = [] ∨ rest.head? = some 13 then some (entryOfVals vs) else none)
        = some e := h
    split_ifs at h with hterm
    simp only [Option.some.injEq] at h
    exact ⟨vs, used, rest, rfl, hterm, h.symm⟩

/-- C6 (amended): whenever the input matches the strict fixed-width
comma-separated layout of the spec (its 17 fields, separators, and the
terminator position: after the 17th field the line ends or `\r\n` follows),
`osp3_log_parse` succeeds (for `log_sz ≥ 81`) with exactly the per-layout
field values — but the converse direction of the claim fails, because `sscanf`
tolerates deviations such as a sign where a digit is expected (and its two
`%hhx` conversions carry no field width); success and the extracted values are
independent of checksum validity, as the mutated-checksum line shows. -/
theorem c6_amended :
    (∀ (log : List Nat) (sz : Nat) (e : osp3_log_entry), 81 ≤ sz →
      spec_strict_parse log = some e → osp3_log_parse log sz = .ok e)
    ∧ osp3_log_parse exLineBadCs 81 = .ok exEntryBadCs
    ∧ osp3_log_checksum exLineBadCs 81 = .res 20 18 1 := by
  refine ⟨?_, by decide, by decide⟩
  intro log sz e hsz h
  obtain ⟨vs, used, rest, hs, hterm, he⟩ := spec_strict_parse_inv h
  have hrestc : cstr rest = [] ∨ ∃ c t3, cstr rest = c :: t3 ∧ digitVal 16 c = none := by
    rcases hterm with h0 | h0
    · subst h0
      exact Or.inl rfl
    · cases rest with
      | nil => exact Or.inl rfl
      | cons c t =>
        have hc13 : c = 13 := by
          simp only [List.head?_cons, Option.some.injEq] at h0
          exact h0
        subst hc13
        have hcc : cstr (13 :: t) = 13 :: cstr t := by
          simp [cstr, List.takeWhile_cons]
        exact Or.inr ⟨13, cstr t, hcc, by decide⟩
  obtain ⟨hlog, hmem44, hrun⟩ :=
    specRun_bridge logFmt log vs used rest (by decide) (by decide) (by decide) hs
  have hs2 : specRun (ScanDir.num 10 10 64 :: logFmt.tail) log = some (vs, used, rest) := hs
  obtain ⟨v, t2, vs2, used2, hr, hs3, hv, hu⟩ := specRun_num_inv hs2
  obtain ⟨hlen, hdig, hval, ht2⟩ := readFixed_inv hr
  cases log with
  | nil => simp at hlen
  | cons c0 t0 =>
    have htake : (c0 :: t0).take 10 = c0 :: t0.take 9 := rfl
    have hmem : c0 ∈ (c0 :: t0).take 10 := by
      rw [htake]
      simp
    obtain ⟨dd, hdd⟩ := Option.isSome_iff_exists.mp (hdig c0 hmem)
    have hc48 : 48 ≤ c0 := (digitVal_facts hdd (Or.inl rfl)).1
    have huse : used = c0 :: (t0.take 9 ++ used2) := by
      rw [hu, htake]
      rfl
    have hsp : isSpaceByte c0 = false := by
      simp [isSpaceByte]
      omega
    have hcstr : cstr (c0 :: t0) = used ++ cstr rest := by
      rw [hlog]
      exact cstr_append used rest (fun c hc => by
        have := hmem44 c hc
        omega)
    have hne : ((used ++ cstr rest).dropWhile isSpaceByte).isEmpty = false := by
      rw [huse, List.cons_append, List.dropWhile_cons, hsp]
      simp
    have hlen17 : vs.length = 17 := by
      rw [specRun_len logFmt (c0 :: t0) vs used rest hs]
      rfl
    have hrun17 : runDirs logFmt (used ++ cstr rest) 0 [] = (17, vs) := by
      rw [hrun (cstr rest) 0 [] hrestc, hlen17]
      simp
    unfold osp3_log_parse OSP3_LOG_PROTOCOL_SIZE
    rw [if_neg (by omega)]
    show (if ((cstr (c0 :: t0)).dropWhile isSpaceByte).isEmpty = true then ParseResult.err Errno.EILSEQ
      else if (runDirs logFmt (cstr (c0 :: t0)) 0 []).1 = 17
        then ParseResult.ok (entryOfVals (runDirs logFmt (cstr (c0 :: t0)) 0 []).2)
        else ParseResult.incomplete) = ParseResult.ok e
    rw [hcstr, hne]
    rw [if_neg (by simp)]
    rw [hrun17]
    show (if (17 : Nat) = 17 then ParseResult.ok (entryOfVals vs) else ParseResult.incomplete)
      = ParseResult.ok e
    rw [if_pos rfl, he]

/-- C6 (counterexample): two ways `sscanf` departs from the strict
fixed-width layout. Replacing the leading timestamp digit of the example line
with `+` violates the layout (a non-digit where a digit is expected), yet
`osp3_log_parse` still succeeds with the same field values, because
`%010lu` accepts a sign; and appending a hex digit to the terminator-less
payload makes the width-less `%hhx` consume the 3-digit run `121`, storing
xor checksum 0x21 instead of the layout's 2-digit 0x12. -/
theorem c6_counterexample :
    (osp3_log_parse exLinePlus 81 = .ok exEntry ∧ spec_strict_parse exLinePlus = none)
    ∧ (osp3_log_parse (exPayload79 ++ [49]) 81
        = .ok ⟨815169, 15296, 36, 550, 0, 0, 0, 0, 0, 0, 0, 0, 0, 0, 0, 20, 33⟩
      ∧ spec_strict_parse (exPayload79 ++ [49]) = none) := by
  refine ⟨⟨by decide, by decide⟩, by decide, by decide⟩

/-- C6 (witness): the example line satisfies the strict layout, and parsing
it through `osp3_log_parse` yields the same entry. -/
theorem c6_amended_witness : osp3_log_parse exLine 81 = .ok exEntry :=
  c6_amended.1 exLine 81 exEntry (by omega) (by decide)

/-! # Helper lemmas: memccpy and list splitting -/

theorem memccpyNL_found : ∀ (a t2 : List Nat) (n : Nat),
    10 ∉ a → a.length < n →
    memccpyNL n (a ++ 10 :: t2) = (a ++ [10], true) := by
  intro a
  induction a with
  | nil =>
    intro t2 n hnot hlen
    cases n with
    | zero => simp at hlen
    | succ n2 =>
      show memccpyNL (n2 + 1) (10 :: t2) = ([10], true)
      unfold memccpyNL
      rw [if_pos rfl]
  | cons c ct ih =>
    intro t2 n hnot hlen
    cases n with
    | zero => simp at hlen
    | succ n2 =>
      have hc : ¬ (c = 10) := by
        intro hcc
        exact hnot (by simp [hcc])
      show memccpyNL (n2 + 1) (c :: (ct ++ 10 :: t2)) = ((c :: ct) ++ [10], true)
      unfold memccpyNL
      rw [if_neg hc]
      rw [ih t2 n2 (fun hm => hnot (by simp [hm])) (by simpa using hlen)]
      rfl

theorem memccpyNL_not_found : ∀ (n : Nat) (l : List Nat),
    10 ∉ l.take n → memccpyNL n l = (l.take n, false) := by
  intro n
  induction n with
  | zero =>
    intro l h
    rfl
  | succ n2 ih =>
    intro l h
    cases l with
    | nil => rfl
    | cons c t =>
      rw [List.take_succ_cons] at h
      have hc : ¬ (c = 10) := by
        intro hcc
        exact h (by simp [hcc])
      show memccpyNL (n2 + 1) (c :: t) = ((c :: t).take (n2 + 1), false)
      unfold memccpyNL
      rw [if_neg hc, ih t (fun hm => h (by simp [hm]))]
      rw [List.take_succ_cons]

theorem getLast?_cons_of_ne {c : Nat} {l : List Nat} (h : l ≠ []) :
    (c :: l).getLast? = l.getLast? := by
  cases l with
  | nil => exact absurd rfl h
  | cons y t => simp [List.getLast?]

theorem memccpyNL_complete : ∀ (n : Nat) (l : List Nat),
    (memccpyNL n l).2 = true →
    (memccpyNL n l).1 ≠ [] ∧ (memccpyNL n l).1.getLast? = some 10 := by
  intro n
  induction n with
  | zero =>
    intro l h
    simp [memccpyNL] at h
  | succ n2 ih =>
    intro l h
    cases l with
    | nil => simp [memccpyNL] at h
    | cons c t =>
      by_cases hc : c = 10
      · subst hc
        have heq : memccpyNL (n2 + 1) (10 :: t) = ([10], true) := by
          unfold memccpyNL
          rw [if_pos rfl]
        rw [heq]
        exact ⟨by simp, by simp⟩
      · have heq : memccpyNL (n2 + 1) (c :: t)
            = (c :: (memccpyNL n2 t).1, (memccpyNL n2 t).2) := by
          show (if c = 10 then ([c], true)
            else ((c :: (memccpyNL n2 t).1, (memccpyNL n2 t).2) : List Nat × Bool)) = _
          rw [if_neg hc]
        rw [heq] at h ⊢
        replace h : (memccpyNL n2 t).2 = true := h
        obtain ⟨h1, h2⟩ := ih t h
        refine ⟨by simp, ?_⟩
        rw [getLast?_cons_of_ne h1]
        exact h2

theorem prefix_split {give tail a r : List Nat} (h : give ++ tail = a ++ 10 :: r)
    (hnot : 10 ∉ a) :
    (give.length ≤ a.length ∧ give = a.take give.length)
    ∨ (∃ g, give = a ++ 10 :: g ∧ g ++ tail = r) := by
  by_cases hle : give.length ≤ a.length
  · left
    refine ⟨hle, ?_⟩
    have h1 : give = (give ++ tail).take give.length := (List.take_left give tail).symm
    conv_lhs => rw [h1, h]
    rw [List.take_append_of_le_length hle]
  · right
    push_neg at hle
    have h1 : give = (a ++ 10 :: r).take give.length := by
      rw [← h]
      exact (List.take_left give tail).symm
    have hk : give.length = a.length + (give.length - a.length) := by omega
    rw [hk, List.take_append] at h1
    have hk2 : give.length - a.length = (give.length - a.length - 1) + 1 := by omega
    rw [hk2, List.take_succ_cons] at h1
    refine ⟨r.take (give.length - a.length - 1), h1, ?_⟩
    rw [h1] at h
    rw [List.append_assoc] at h
    have h2 := List.append_cancel_left h
    have h3 : (10 : Nat) :: (r.take (give.length - a.length - 1) ++ tail) = 10 :: r := by
      rw [← List.cons_append]
      exact h2
    injection h3

/-! # Helper lemmas: stream bytes -/

theorem streamBytes_cons (e : FetchEvent) (s : List FetchEvent) :
    streamBytes (e :: s) = eventBytes e ++ streamBytes s := by
  simp [streamBytes]

theorem streamBytes_pkts : ∀ (ps : List (List Nat)),
    streamBytes (ps.map FetchEvent.pkt) = ps.flatten := by
  intro ps
  induction ps with
  | nil => rfl
  | cons p t ih =>
    rw [List.map_cons, streamBytes_cons, List.flatten_cons, ih]
    rfl

instance {α β : Type} [DecidableEq α] [DecidableEq β] : DecidableEq (Except α β) := fun a b =>
  match a, b with
  | Except.error x, Except.error y =>
    if h : x = y then .isTrue (by rw [h]) else .isFalse (fun hc => h (by injection hc))
  | Except.ok x, Except.ok y =>
    if h : x = y then .isTrue (by rw [h]) else .isFalse (fun hc => h (by injection hc))
  | Except.error x, Except.ok y => .isFalse (fun hc => Except.noConfusion hc)
  | Except.ok x, Except.error y => .isFalse (fun hc => Except.noConfusion hc)

/-- C5: `osp3_read` first drains `min(count, len)` bytes from the front of the
lookahead buffer (advancing `idx`, resetting it to 0 once `rem` hits 0); if
that drained fewer than `len` bytes it issues exactly one transport fetch for
the remainder, and on success the transferred bytes are the drained bytes
followed by whatever the fetch returned (possibly fewer than requested, which
is not an error); if the fetch fails, the call fails while the destination
still holds the drained bytes, which are not rolled back into the buffer. -/
theorem c5_read_drain_then_fetch (dev : osp3_device) (len : Nat) :
    (len ≤ dev.rbuf.rem →
      osp3_read dev len
        = .ok ((rbufValid dev).take len)
            ⟨⟨dev.rbuf.buf,
              (if dev.rbuf.rem - len > 0 then dev.rbuf.idx + len else 0),
              dev.rbuf.rem - len⟩, dev.stream⟩)
    ∧ (dev.rbuf.rem < len →
      (∀ e s2, osp3_read_buf (len - dev.rbuf.rem) dev.stream = (.error e, s2) →
        osp3_read dev len = .err e (rbufValid dev) ⟨⟨dev.rbuf.buf, 0, 0⟩, s2⟩)
      ∧ (∀ bs s2, osp3_read_buf (len - dev.rbuf.rem) dev.stream = (.ok bs, s2) →
        osp3_read dev len = .ok (rbufValid dev ++ bs) ⟨⟨dev.rbuf.buf, 0, 0⟩, s2⟩)) := by
  have hshow : osp3_read dev len
      = (if min dev.rbuf.rem len < len then
          match osp3_read_buf (len - min dev.rbuf.rem len) dev.stream with
          | (Except.error e, s2) =>
            ReadResult.err e ((dev.rbuf.buf.drop dev.rbuf.idx).take (min dev.rbuf.rem len))
              ⟨⟨dev.rbuf.buf,
                (if dev.rbuf.rem - min dev.rbuf.rem len > 0
                  then dev.rbuf.idx + min dev.rbuf.rem len else 0),
                dev.rbuf.rem - min dev.rbuf.rem len⟩, s2⟩
          | (Except.ok bs, s2) =>
            ReadResult.ok ((dev.rbuf.buf.drop dev.rbuf.idx).take (min dev.rbuf.rem len) ++ bs)
              ⟨⟨dev.rbuf.buf,
                (if dev.rbuf.rem - min dev.rbuf.rem len > 0
                  then dev.rbuf.idx + min dev.rbuf.rem len else 0),
                dev.rbuf.rem - min dev.rbuf.rem len⟩, s2⟩
        else
          ReadResult.ok ((dev.rbuf.buf.drop dev.rbuf.idx).take (min dev.rbuf.rem len))
            ⟨⟨dev.rbuf.buf,
              (if dev.rbuf.rem - min dev.rbuf.rem len > 0
                then dev.rbuf.idx + min dev.rbuf.rem len else 0),
              dev.rbuf.rem - min dev.rbuf.rem len⟩, dev.stream⟩) := rfl
  constructor
  · intro hle
    have hmin : min dev.rbuf.rem len = len := by omega
    rw [hshow, hmin, if_neg (by omega)]
    have hout : (dev.rbuf.buf.drop dev.rbuf.idx).take len = (rbufValid dev).take len := by
      show _ = ((dev.rbuf.buf.drop dev.rbuf.idx).take dev.rbuf.rem).take len
      rw [List.take_take]
      have : min len dev.rbuf.rem = len := by omega
      rw [this]
    rw [hout]
  · intro hlt
    have hmin : min dev.rbuf.rem len = dev.rbuf.rem := by omega
    have hval : (dev.rbuf.buf.drop dev.rbuf.idx).take dev.rbuf.rem = rbufValid dev := rfl
    constructor
    · intro e s2 hfetch
      rw [hshow, hmin, if_pos (by omega), hfetch]
      show ReadResult.err e _ ⟨⟨dev.rbuf.buf,
          (if dev.rbuf.rem - dev.rbuf.rem > 0 then dev.rbuf.idx + dev.rbuf.rem else 0),
          dev.rbuf.rem - dev.rbuf.rem⟩, s2⟩ = _
      rw [hval, Nat.sub_self, if_neg (by omega)]
    · intro bs s2 hfetch
      rw [hshow, hmin, if_pos (by omega), hfetch]
      show ReadResult.ok _ ⟨⟨dev.rbuf.buf,
          (if dev.rbuf.rem - dev.rbuf.rem > 0 then dev.rbuf.idx + dev.rbuf.rem else 0),
          dev.rbuf.rem - dev.rbuf.rem⟩, s2⟩ = _
      rw [hval, Nat.sub_self, if_neg (by omega)]

/-- C5 (witness): concrete drains with and without a transport fetch, and a
failing fetch that keeps the drained bytes. -/
theorem c5_read_drain_then_fetch_witness :
    osp3_read ⟨⟨List.range 64, 2, 5⟩, [FetchEvent.pkt [100, 101]]⟩ 4
      = .ok [2, 3, 4, 5] ⟨⟨List.range 64, 6, 1⟩, [FetchEvent.pkt [100, 101]]⟩
    ∧ osp3_read ⟨⟨List.range 64, 2, 3⟩, [FetchEvent.fail (Errno.other 5)]⟩ 9
      = .err (Errno.other 5) [2, 3, 4] ⟨⟨List.range 64, 0, 0⟩, []⟩
    ∧ osp3_read ⟨⟨List.range 64, 2, 3⟩, [FetchEvent.pkt [100, 101]]⟩ 9
      = .ok [2, 3, 4, 100, 101] ⟨⟨List.range 64, 0, 0⟩, []⟩ := by
  refine ⟨?_, ?_, ?_⟩
  · have h := (c5_read_drain_then_fetch ⟨⟨List.range 64, 2, 5⟩, [FetchEvent.pkt [100, 101]]⟩ 4).1
      (by decide)
    rw [h]
    decide
  · have h := ((c5_read_drain_then_fetch
      ⟨⟨List.range 64, 2, 3⟩, [FetchEvent.fail (Errno.other 5)]⟩ 9).2 (by decide)).1
      (Errno.other 5) [] (by decide)
    rw [h]
    decide
  · have h := ((c5_read_drain_then_fetch
      ⟨⟨List.range 64, 2, 3⟩, [FetchEvent.pkt [100, 101]]⟩ 9).2 (by decide)).2
      [100, 101] [] (by decide)
    rw [h]
    decide

/-- When the lookahead buffer's unconsumed bytes contain a newline within the
first `min(count, len)` bytes, `osp3_read_line` answers from the lookahead
buffer alone and leaves the transport schedule untouched. -/
theorem read_line_lookahead (dev : osp3_device) (len : Nat) (a r : List Nat) (fuel : Nat)
    (hwf : devWF dev)
    (hval : rbufValid dev = a ++ 10 :: r) (hnot : 10 ∉ a) (hlen : a.length + 1 ≤ len) :
    osp3_read_line fuel dev len
      = .ok (a ++ [10])
          ⟨⟨dev.rbuf.buf,
            (if dev.rbuf.rem - (a.length + 1) > 0 then dev.rbuf.idx + (a.length + 1) else 0),
            dev.rbuf.rem - (a.length + 1)⟩, dev.stream⟩ := by
  obtain ⟨hbuf, hidx⟩ := hwf
  have hvlen : (rbufValid dev).length = dev.rbuf.rem := by
    show ((dev.rbuf.buf.drop dev.rbuf.idx).take dev.rbuf.rem).length = dev.rbuf.rem
    rw [List.length_take, List.length_drop, hbuf]
    omega
  have harem : a.length + 1 ≤ dev.rbuf.rem := by
    rw [hval] at hvlen
    simp at hvlen
    omega
  have hdecomp : dev.rbuf.buf.drop dev.rbuf.idx
      = a ++ 10 :: (r ++ (dev.rbuf.buf.drop dev.rbuf.idx).drop dev.rbuf.rem) := by
    conv_lhs => rw [← List.take_append_drop dev.rbuf.rem (dev.rbuf.buf.drop dev.rbuf.idx)]
    have hv2 : (dev.rbuf.buf.drop dev.rbuf.idx).take dev.rbuf.rem = a ++ 10 :: r := hval
    rw [hv2]
    simp
  have hlc : lineccpy len (dev.rbuf.buf.drop dev.rbuf.idx) dev.rbuf.rem = (a ++ [10], true) := by
    unfold lineccpy
    rw [hdecomp]
    exact memccpyNL_found a _ (min len dev.rbuf.rem) hnot (by omega)
  have hshow : osp3_read_line fuel dev len
      = (if (lineccpy len (dev.rbuf.buf.drop dev.rbuf.idx) dev.rbuf.rem).2 = true then
          ReadResult.ok (lineccpy len (dev.rbuf.buf.drop dev.rbuf.idx) dev.rbuf.rem).1
            ⟨⟨dev.rbuf.buf,
              (if dev.rbuf.rem - (lineccpy len (dev.rbuf.buf.drop dev.rbuf.idx) dev.rbuf.rem).1.length > 0
                then dev.rbuf.idx + (lineccpy len (dev.rbuf.buf.drop dev.rbuf.idx) dev.rbuf.rem).1.length
                else 0),
              dev.rbuf.rem - (lineccpy len (dev.rbuf.buf.drop dev.rbuf.idx) dev.rbuf.rem).1.length⟩,
              dev.stream⟩
        else read_line_loop fuel len (lineccpy len (dev.rbuf.buf.drop dev.rbuf.idx) dev.rbuf.rem).1
          ⟨dev.rbuf.buf,
            (if dev.rbuf.rem - (lineccpy len (dev.rbuf.buf.drop dev.rbuf.idx) dev.rbuf.rem).1.length > 0
              then dev.rbuf.idx + (lineccpy len (dev.rbuf.buf.drop dev.rbuf.idx) dev.rbuf.rem).1.length
              else 0),
            dev.rbuf.rem - (lineccpy len (dev.rbuf.buf.drop dev.rbuf.idx) dev.rbuf.rem).1.length⟩
          dev.stream) := rfl
  rw [hshow, hlc]
  have hlen2 : (a ++ [10]).length = a.length + 1 := by simp
  show (if true = true then _ else _) = _
  rw [if_pos rfl, hlen2]

/-! # Helper lemmas: one iteration of the read-line loop -/

theorem read_line_loop_enobufs (fuel len : Nat) (out : List Nat) (rb : osp3_rw_buffer)
    (s : List FetchEvent) (hzero : min OSP3_W_MAX_PACKET_SIZE (len - out.length) = 0) :
    read_line_loop (fuel + 1) len out rb s = .err .ENOBUFS out ⟨rb, s⟩ := by
  show (if min OSP3_W_MAX_PACKET_SIZE (len - out.length) = 0
      then ReadResult.err Errno.ENOBUFS out ⟨rb, s⟩
      else match osp3_read_buf (min OSP3_W_MAX_PACKET_SIZE (len - out.length)) s with
        | (Except.error e, s2) => ReadResult.err e out ⟨rb, s2⟩
        | (Except.ok packet, s2) =>
          if (lineccpy (len - out.length) packet packet.length).2 = true then
            ReadResult.ok (out ++ (lineccpy (len - out.length) packet packet.length).1)
              ⟨⟨packet.drop (lineccpy (len - out.length) packet packet.length).1.length
                  ++ rb.buf.drop
                    (packet.length - (lineccpy (len - out.length) packet packet.length).1.length),
                rb.idx,
                packet.length - (lineccpy (len - out.length) packet packet.length).1.length⟩, s2⟩
          else
            read_line_loop fuel len (out ++ (lineccpy (len - out.length) packet packet.length).1)
              ⟨packet.drop (lineccpy (len - out.length) packet packet.length).1.length
                  ++ rb.buf.drop
                    (packet.length - (lineccpy (len - out.length) packet packet.length).1.length),
                rb.idx,
                packet.length - (lineccpy (len - out.length) packet packet.length).1.length⟩ s2)
      = ReadResult.err Errno.ENOBUFS out ⟨rb, s⟩
  rw [if_pos hzero]

theorem read_line_loop_fail (fuel len : Nat) (out : List Nat) (rb : osp3_rw_buffer)
    (s : List FetchEvent) (hpos : ¬ (min OSP3_W_MAX_PACKET_SIZE (len - out.length) = 0))
    {e : Errno} {s2 : List FetchEvent}
    (hfetch : osp3_read_buf (min OSP3_W_MAX_PACKET_SIZE (len - out.length)) s = (.error e, s2)) :
    read_line_loop (fuel + 1) len out rb s = .err e out ⟨rb, s2⟩ := by
  show (if min OSP3_W_MAX_PACKET_SIZE (len - out.length) = 0
      then ReadResult.err Errno.ENOBUFS out ⟨rb, s⟩
      else match osp3_read_buf (min OSP3_W_MAX_PACKET_SIZE (len - out.length)) s with
        | (Except.error e, s2) => ReadResult.err e out ⟨rb, s2⟩
        | (Except.ok packet, s2) =>
          if (lineccpy (len - out.length) packet packet.length).2 = true then
            ReadResult.ok (out ++ (lineccpy (len - out.length) packet packet.length).1)
              ⟨⟨packet.drop (lineccpy (len - out.length) packet packet.length).1.length
                  ++ rb.buf.drop
                    (packet.length - (lineccpy (len - out.length) packet packet.length).1.length),
                rb.idx,
                packet.length - (lineccpy (len - out.length) packet packet.length).1.length⟩, s2⟩
          else
            read_line_loop fuel len (out ++ (lineccpy (len - out.length) packet packet.length).1)
              ⟨packet.drop (lineccpy (len - out.length) packet packet.length).1.length
                  ++ rb.buf.drop
                    (packet.length - (lineccpy (len - out.length) packet packet.length).1.length),
                rb.idx,
                packet.length - (lineccpy (len - out.length) packet packet.length).1.length⟩ s2)
      = ReadResult.err e out ⟨rb, s2⟩
  rw [if_neg hpos, hfetch]

theorem read_line_loop_step (fuel len : Nat) (out : List Nat) (rb : osp3_rw_buffer)
    (s : List FetchEvent) (hpos : ¬ (min OSP3_W_MAX_PACKET_SIZE (len - out.length) = 0))
    {give : List Nat} {s2 : List FetchEvent}
    (hfetch : osp3_read_buf (min OSP3_W_MAX_PACKET_SIZE (len - out.length)) s = (.ok give, s2)) :
    read_line_loop (fuel + 1) len out rb s
      = (if (lineccpy (len - out.length) give give.length).2 = true then
          ReadResult.ok (out ++ (lineccpy (len - out.length) give give.length).1)
            ⟨⟨give.drop (lineccpy (len - out.length) give give.length).1.length
                ++ rb.buf.drop
                  (give.length - (lineccpy (len - out.length) give give.length).1.length),
              rb.idx,
              give.length - (lineccpy (len - out.length) give give.length).1.length⟩, s2⟩
        else
          read_line_loop fuel len (out ++ (lineccpy (len - out.length) give give.length).1)
            ⟨give.drop (lineccpy (len - out.length) give give.length).1.length
                ++ rb.buf.drop
                  (give.length - (lineccpy (len - out.length) give give.length).1.length),
              rb.idx,
              give.length - (lineccpy (len - out.length) give give.length).1.length⟩ s2) := by
  show (if min OSP3_W_MAX_PACKET_SIZE (len - out.length) = 0
      then ReadResult.err Errno.ENOBUFS out ⟨rb, s⟩
      else match osp3_read_buf (min OSP3_W_MAX_PACKET_SIZE (len - out.length)) s with
        | (Except.error e, s2) => ReadResult.err e out ⟨rb, s2⟩
        | (Except.ok packet, s2) =>
          if (lineccpy (len - out.length) packet packet.length).2 = true then
            ReadResult.ok (out ++ (lineccpy (len - out.length) packet packet.length).1)
              ⟨⟨packet.drop (lineccpy (len - out.length) packet packet.length).1.length
                  ++ rb.buf.drop
                    (packet.length - (lineccpy (len - out.length) packet packet.length).1.length),
                rb.idx,
                packet.length - (lineccpy (len - out.length) packet packet.length).1.length⟩, s2⟩
          else
            read_line_loop fuel len (out ++ (lineccpy (len - out.length) packet packet.length).1)
              ⟨packet.drop (lineccpy (len - out.length) packet packet.length).1.length
                  ++ rb.buf.drop
                    (packet.length - (lineccpy (len - out.length) packet packet.length).1.length),
                rb.idx,
                packet.length - (lineccpy (len - out.length) packet packet.length).1.length⟩ s2)
      = _
  rw [if_neg hpos, hfetch]

theorem osp3_read_buf_pkt (req : Nat) (p : List Nat) (s1 : List FetchEvent) :
    osp3_read_buf req (FetchEvent.pkt p :: s1)
      = (.ok (p.take req),
         if p.length ≤ req then s1 else .pkt (p.drop req) :: s1) := by
  show (if p.length ≤ req then ((Except.ok p : Except Errno (List Nat)), s1)
      else (Except.ok (p.take req), FetchEvent.pkt (p.drop req) :: s1)) = _
  by_cases hple : p.length ≤ req
  · rw [if_pos hple, if_pos hple, List.take_of_length_le hple]
  · rw [if_neg hple, if_neg hple]

/-- One successful loop iteration, factored out of the fuel induction: `give`
is what the fetch returned, `s2` the remaining schedule.  Concludes with the
induction hypothesis `ih` when the newline has not arrived yet. -/
theorem read_line_loop_cont (len fuel : Nat)
    (ih : ∀ (s : List FetchEvent) (out : List Nat) (rb : osp3_rw_buffer) (a r : List Nat),
      rb.buf.length = 64 → rb.idx = 0 → rb.rem = 0 → allPkt s →
      streamBytes s = a ++ 10 :: r → 10 ∉ a →
      out.length + a.length + 1 ≤ len →
      s.length + (len - out.length) + 1 ≤ fuel →
      ∃ rb2 s2, read_line_loop fuel len out rb s = .ok (out ++ a ++ [10]) ⟨rb2, s2⟩
        ∧ rb2.buf.length = 64 ∧ rb2.idx = 0 ∧ rb2.rem ≤ 64
        ∧ (rb2.buf.drop rb2.idx).take rb2.rem ++ streamBytes s2 = r
        ∧ allPkt s2 ∧ s2.length ≤ s.length)
    (s : List FetchEvent) (out : List Nat) (rb : osp3_rw_buffer) (a r : List Nat)
    (give : List Nat) (s2 : List FetchEvent)
    (hbuf : rb.buf.length = 64) (hidx : rb.idx = 0) (hrem : rb.rem = 0)
    (hfetch : osp3_read_buf (min OSP3_W_MAX_PACKET_SIZE (len - out.length)) s = (.ok give, s2))
    (hgl : give.length ≤ min OSP3_W_MAX_PACKET_SIZE (len - out.length))
    (hsplit : give ++ streamBytes s2 = a ++ 10 :: r)
    (hnot : 10 ∉ a)
    (hall2 : allPkt s2)
    (hlen : out.length + a.length + 1 ≤ len)
    (hbudget : s2.length + (len - (out.length + give.length)) + 1 ≤ fuel) :
    ∃ rb2 s3, read_line_loop (fuel + 1) len out rb s = .ok (out ++ a ++ [10]) ⟨rb2, s3⟩
      ∧ rb2.buf.length = 64 ∧ rb2.idx = 0 ∧ rb2.rem ≤ 64
      ∧ (rb2.buf.drop rb2.idx).take rb2.rem ++ streamBytes s3 = r
      ∧ allPkt s3 ∧ s3.length ≤ s2.length := by
  have hpos : ¬ (min OSP3_W_MAX_PACKET_SIZE (len - out.length) = 0) := by
    unfold OSP3_W_MAX_PACKET_SIZE
    omega
  have hstep := read_line_loop_step fuel len out rb s hpos hfetch
  have hlc : lineccpy (len - out.length) give give.length = memccpyNL give.length give := by
    unfold lineccpy
    have hmin2 : min (len - out.length) give.length = give.length := by
      unfold OSP3_W_MAX_PACKET_SIZE at hgl
      omega
    rw [hmin2]
  rcases prefix_split hsplit hnot with ⟨hle2, hgeq⟩ | ⟨g, hgeq, hgr⟩
  · -- the newline is not in `give`: copy everything and continue
    have hnotg : 10 ∉ give := by
      intro hm
      rw [hgeq] at hm
      exact hnot (List.mem_of_mem_take hm)
    have hmem : memccpyNL give.length give = (give, false) := by
      have h1 := memccpyNL_not_found give.length give
      rw [List.take_length give] at h1
      exact h1 hnotg
    have hm1 : (memccpyNL give.length give).1 = give := by rw [hmem]
    have hm2 : (memccpyNL give.length give).2 = false := by rw [hmem]
    rw [hstep, hlc, hm2, hm1, if_neg (by simp)]
    rw [List.drop_length give, Nat.sub_self, List.drop_zero, List.nil_append, hidx]
    have ha : give ++ a.drop give.length = a := by
      conv_rhs => rw [← List.take_append_drop give.length a]
      rw [← hgeq]
    have hsb : streamBytes s2 = a.drop give.length ++ 10 :: r := by
      have h2 : give ++ streamBytes s2 = give ++ (a.drop give.length ++ 10 :: r) := by
        rw [hsplit, ← List.append_assoc, ha]
      exact List.append_cancel_left h2
    have hnot2 : 10 ∉ a.drop give.length := fun hm => hnot (List.mem_of_mem_drop hm)
    have hdlen : (a.drop give.length).length = a.length - give.length := by
      rw [List.length_drop]
    have hlen2 : (out ++ give).length + (a.drop give.length).length + 1 ≤ len := by
      rw [List.length_append, hdlen]
      omega
    have hbudget2 : s2.length + (len - (out ++ give).length) + 1 ≤ fuel := by
      rw [List.length_append]
      omega
    obtain ⟨rb3, s3, hrun, h64, hi0, hr64, hrem3, hall3, hlen3⟩ :=
      ih s2 (out ++ give) ⟨rb.buf, 0, 0⟩ (a.drop give.length) r hbuf rfl rfl hall2 hsb hnot2
        hlen2 hbudget2
    rw [hrun]
    have hoeq : (out ++ give) ++ a.drop give.length = out ++ a := by
      rw [List.append_assoc, ha]
    rw [hoeq]
    exact ⟨rb3, s3, rfl, h64, hi0, hr64, hrem3, hall3, hlen3⟩
  · -- the newline is inside `give`: finish, keeping the overshoot `g`
    have hglen2 : give.length = a.length + 1 + g.length := by
      rw [hgeq]
      simp [List.length_append]
      omega
    have hfound : memccpyNL give.length give = (a ++ [10], true) := by
      have h1 := memccpyNL_found a g give.length hnot (by omega)
      rw [← hgeq] at h1
      exact h1
    have hm1 : (memccpyNL give.length give).1 = a ++ [10] := by rw [hfound]
    have hm2 : (memccpyNL give.length give).2 = true := by rw [hfound]
    rw [hstep, hlc, hm2, hm1, if_pos rfl]
    have hl10 : (a ++ [10]).length = a.length + 1 := by simp
    have hdropg : give.drop (a.length + 1) = g := by
      rw [hgeq, List.drop_append]
      rfl
    have hglen3 : give.length - (a.length + 1) = g.length := by omega
    rw [hl10, hdropg, hglen3]
    have hgle64 : g.length ≤ 64 := by
      have : min OSP3_W_MAX_PACKET_SIZE (len - out.length) ≤ 64 := by
        unfold OSP3_W_MAX_PACKET_SIZE
        omega
      omega
    refine ⟨⟨g ++ rb.buf.drop g.length, rb.idx, g.length⟩, s2, ?_, ?_, hidx,
      (by
        show g.length ≤ 64
        exact hgle64), ?_,
      hall2, le_refl _⟩
    · rw [← List.append_assoc]
    · rw [List.length_append, List.length_drop, hbuf]
      omega
    · rw [hidx, List.drop_zero, List.take_left g (rb.buf.drop g.length)]
      exact hgr

/-- The read-line loop, started with an empty lookahead buffer, returns
exactly the first line of the pending stream bytes (newline included) and
retains the remainder, provided the line fits the remaining room and the
schedule contains only packet arrivals. -/
theorem read_line_loop_newline (len : Nat) :
    ∀ (fuel : Nat) (s : List FetchEvent) (out : List Nat) (rb : osp3_rw_buffer) (a r : List Nat),
    rb.buf.length = 64 → rb.idx = 0 → rb.rem = 0 →
    allPkt s →
    streamBytes s = a ++ 10 :: r →
    10 ∉ a →
    out.length + a.length + 1 ≤ len →
    s.length + (len - out.length) + 1 ≤ fuel →
    ∃ rb2 s2,
      read_line_loop fuel len out rb s = .ok (out ++ a ++ [10]) ⟨rb2, s2⟩
      ∧ rb2.buf.length = 64 ∧ rb2.idx = 0 ∧ rb2.rem ≤ 64
      ∧ (rb2.buf.drop rb2.idx).take rb2.rem ++ streamBytes s2 = r
      ∧ allPkt s2 ∧ s2.length ≤ s.length := by
  intro fuel
  induction fuel with
  | zero =>
    intro s out rb a r hbuf hidx hrem hall hstream hnot hlen hfuel
    omega
  | succ fuel ih =>
    intro s out rb a r hbuf hidx hrem hall hstream hnot hlen hfuel
    cases s with
    | nil =>
      rw [show streamBytes [] = [] from rfl] at hstream
      exact absurd hstream.symm (by simp)
    | cons ev s1 =>
      obtain ⟨p, hp⟩ := hall ev (by simp)
      subst hp
      rw [streamBytes_cons, show eventBytes (FetchEvent.pkt p) = p from rfl] at hstream
      have hall1 : allPkt s1 := fun e he => hall e (by simp [he])
      have hfetch := osp3_read_buf_pkt (min OSP3_W_MAX_PACKET_SIZE (len - out.length)) p s1
      have hslen : (FetchEvent.pkt p :: s1).length = s1.length + 1 := rfl
      by_cases hple : p.length ≤ min OSP3_W_MAX_PACKET_SIZE (len - out.length)
      · rw [if_pos hple] at hfetch
        rw [List.take_of_length_le hple] at hfetch
        have hcont := read_line_loop_cont len fuel ih (FetchEvent.pkt p :: s1) out rb a r p s1
          hbuf hidx hrem hfetch hple hstream hnot hall1 hlen (by
            rw [hslen] at hfuel
            omega)
        obtain ⟨rb2, s3, hrun, h64, hi0, hr64, hrem3, hall3, hlen3⟩ := hcont
        exact ⟨rb2, s3, hrun, h64, hi0, hr64, hrem3, hall3, by
          rw [hslen]
          omega⟩
      · rw [if_neg hple] at hfetch
        push_neg at hple
        have hgl : (p.take (min OSP3_W_MAX_PACKET_SIZE (len - out.length))).length
            = min OSP3_W_MAX_PACKET_SIZE (len - out.length) := by
          rw [List.length_take]
          omega
        have hsplit : p.take (min OSP3_W_MAX_PACKET_SIZE (len - out.length))
            ++ streamBytes (FetchEvent.pkt (p.drop (min OSP3_W_MAX_PACKET_SIZE (len - out.length))) :: s1)
            = a ++ 10 :: r := by
          rw [streamBytes_cons,
            show eventBytes (FetchEvent.pkt (p.drop (min OSP3_W_MAX_PACKET_SIZE (len - out.length)))) = p.drop (min OSP3_W_MAX_PACKET_SIZE (len - out.length)) from rfl,
            ← List.append_assoc, List.take_append_drop]
          exact hstream
        have hall2 : allPkt (FetchEvent.pkt (p.drop (min OSP3_W_MAX_PACKET_SIZE (len - out.length))) :: s1) := by
          intro e he
          rcases List.mem_cons.mp he with h1 | h1
          · exact ⟨_, h1⟩
          · exact hall1 e h1
        have hminpos : 1 ≤ min OSP3_W_MAX_PACKET_SIZE (len - out.length) := by
          unfold OSP3_W_MAX_PACKET_SIZE
          omega
        have hcont := read_line_loop_cont len fuel ih (FetchEvent.pkt p :: s1) out rb a r
          (p.take (min OSP3_W_MAX_PACKET_SIZE (len - out.length)))
          (FetchEvent.pkt (p.drop (min OSP3_W_MAX_PACKET_SIZE (len - out.length))) :: s1)
          hbuf hidx hrem hfetch (by rw [hgl]) hsplit hnot hall2 hlen (by
            rw [List.length_cons, hslen] at *
            rw [hgl]
            rw [hslen] at hfuel
            omega)
        obtain ⟨rb2, s3, hrun, h64, hi0, hr64, hrem3, hall3, hlen3⟩ := hcont
        refine ⟨rb2, s3, hrun, h64, hi0, hr64, hrem3, hall3, ?_⟩
        rw [List.length_cons] at hlen3
        rw [hslen]
        omega

theorem osp3_read_line_unfold (fuel : Nat) (dev : osp3_device) (len : Nat) :
    osp3_read_line fuel dev len
      = (if (lineccpy len (dev.rbuf.buf.drop dev.rbuf.idx) dev.rbuf.rem).2 = true then
          ReadResult.ok (lineccpy len (dev.rbuf.buf.drop dev.rbuf.idx) dev.rbuf.rem).1
            ⟨⟨dev.rbuf.buf,
              (if dev.rbuf.rem
                  - (lineccpy len (dev.rbuf.buf.drop dev.rbuf.idx) dev.rbuf.rem).1.length > 0
                then dev.rbuf.idx
                  + (lineccpy len (dev.rbuf.buf.drop dev.rbuf.idx) dev.rbuf.rem).1.length
                else 0),
              dev.rbuf.rem
                - (lineccpy len (dev.rbuf.buf.drop dev.rbuf.idx) dev.rbuf.rem).1.length⟩,
              dev.stream⟩
        else read_line_loop fuel len (lineccpy len (dev.rbuf.buf.drop dev.rbuf.idx) dev.rbuf.rem).1
          ⟨dev.rbuf.buf,
            (if dev.rbuf.rem
                - (lineccpy len (dev.rbuf.buf.drop dev.rbuf.idx) dev.rbuf.rem).1.length > 0
              then dev.rbuf.idx
                + (lineccpy len (dev.rbuf.buf.drop dev.rbuf.idx) dev.rbuf.rem).1.length
              else 0),
            dev.rbuf.rem
              - (lineccpy len (dev.rbuf.buf.drop dev.rbuf.idx) dev.rbuf.rem).1.length⟩
          dev.stream) := rfl

/-- `osp3_read_line` on a well-formed device whose pending content starts with
a complete line (first newline at position `a.length < len`, packet-only
schedule, enough fuel) returns exactly that line and leaves exactly the
remaining content. -/
theorem read_line_newline (fuel : Nat) (dev : osp3_device) (len : Nat) (a r : List Nat)
    (hwf : devWF dev) (hall : allPkt dev.stream)
    (hbytes : devBytes dev = a ++ 10 :: r) (hnot : 10 ∉ a)
    (hlen : a.length + 1 ≤ len)
    (hfuel : dev.stream.length + len + 1 ≤ fuel) :
    ∃ dev2, osp3_read_line fuel dev len = .ok (a ++ [10]) dev2
      ∧ devWF dev2 ∧ allPkt dev2.stream ∧ devBytes dev2 = r
      ∧ dev2.stream.length ≤ dev.stream.length := by
  obtain ⟨hbuf, hidx⟩ := hwf
  have hvlen : (rbufValid dev).length = dev.rbuf.rem := by
    show ((dev.rbuf.buf.drop dev.rbuf.idx).take dev.rbuf.rem).length = dev.rbuf.rem
    rw [List.length_take, List.length_drop, hbuf]
    omega
  have hb2 : rbufValid dev ++ streamBytes dev.stream = a ++ 10 :: r := hbytes
  have hv : rbufValid dev = (a ++ 10 :: r).take dev.rbuf.rem := by
    have h1 : rbufValid dev
        = (rbufValid dev ++ streamBytes dev.stream).take (rbufValid dev).length :=
      (List.take_left _ _).symm
    rw [hvlen] at h1
    rw [h1, hb2]
  by_cases hcase : a.length + 1 ≤ dev.rbuf.rem
  · -- the newline is already inside the lookahead buffer
    have hv2 : rbufValid dev = a ++ 10 :: r.take (dev.rbuf.rem - a.length - 1) := by
      rw [hv, show dev.rbuf.rem = a.length + (dev.rbuf.rem - a.length) from by omega,
        List.take_append,
        show dev.rbuf.rem - a.length = (dev.rbuf.rem - a.length - 1) + 1 from by omega,
        List.take_succ_cons]
      rw [show a.length + (dev.rbuf.rem - a.length - 1 + 1) - a.length - 1
        = dev.rbuf.rem - a.length - 1 from by omega]
    have hc10 := read_line_lookahead dev len a (r.take (dev.rbuf.rem - a.length - 1)) fuel
      ⟨hbuf, hidx⟩ hv2 hnot hlen
    refine ⟨_, hc10, ⟨hbuf, ?_⟩, hall, ?_, le_refl _⟩
    · show (if dev.rbuf.rem - (a.length + 1) > 0 then dev.rbuf.idx + (a.length + 1) else 0)
        + (dev.rbuf.rem - (a.length + 1)) ≤ 64
      split
      · omega
      · omega
    · show (dev.rbuf.buf.drop
          (if dev.rbuf.rem - (a.length + 1) > 0 then dev.rbuf.idx + (a.length + 1) else 0)).take
            (dev.rbuf.rem - (a.length + 1))
        ++ streamBytes dev.stream = r
      have hrest : r.take (dev.rbuf.rem - a.length - 1) ++ streamBytes dev.stream = r := by
        have h2 : a ++ 10 :: (r.take (dev.rbuf.rem - a.length - 1) ++ streamBytes dev.stream)
            = a ++ 10 :: r := by
          rw [← List.cons_append, ← List.append_assoc, ← hv2]
          exact hb2
        have h3 := List.append_cancel_left h2
        injection h3
      by_cases hpos : dev.rbuf.rem - (a.length + 1) > 0
      · rw [if_pos hpos]
        have hdt : (dev.rbuf.buf.drop (dev.rbuf.idx + (a.length + 1))).take
            (dev.rbuf.rem - (a.length + 1))
            = (rbufValid dev).drop (a.length + 1) := by
          show _ = ((dev.rbuf.buf.drop dev.rbuf.idx).take dev.rbuf.rem).drop (a.length + 1)
          rw [List.drop_take, List.drop_drop]
        rw [hdt, hv2]
        rw [show (a ++ 10 :: r.take (dev.rbuf.rem - a.length - 1)) = (a ++ [10]) ++ r.take (dev.rbuf.rem - a.length - 1) from by simp]
        rw [show a.length + 1 = (a ++ [10]).length from by simp]
        rw [List.drop_left]
        exact hrest
      · rw [if_neg hpos]
        have hr0 : dev.rbuf.rem - (a.length + 1) = 0 := by omega
        rw [hr0]
        have hrt : r.take (dev.rbuf.rem - a.length - 1) = [] := by
          rw [show dev.rbuf.rem - a.length - 1 = 0 from by omega]
          rfl
        rw [hrt] at hrest
        simpa using hrest
  · -- the lookahead buffer holds only a strict prefix of the line body
    push_neg at hcase
    have hv3 : rbufValid dev = a.take dev.rbuf.rem := by
      rw [hv, List.take_append_of_le_length (by omega)]
    have hnotv : 10 ∉ (dev.rbuf.buf.drop dev.rbuf.idx).take (min len dev.rbuf.rem) := by
      intro hm
      have hminr : min len dev.rbuf.rem = dev.rbuf.rem := by omega
      rw [hminr] at hm
      have hm2 : (10 : Nat) ∈ rbufValid dev := hm
      rw [hv3] at hm2
      exact hnot (List.mem_of_mem_take hm2)
    have hlc : lineccpy len (dev.rbuf.buf.drop dev.rbuf.idx) dev.rbuf.rem
        = (rbufValid dev, false) := by
      unfold lineccpy
      rw [memccpyNL_not_found _ _ hnotv]
      have hminr : min len dev.rbuf.rem = dev.rbuf.rem := by omega
      rw [hminr]
      rfl
    have hm1 : (lineccpy len (dev.rbuf.buf.drop dev.rbuf.idx) dev.rbuf.rem).1
        = rbufValid dev := by rw [hlc]
    have hm2 : (lineccpy len (dev.rbuf.buf.drop dev.rbuf.idx) dev.rbuf.rem).2 = false := by
      rw [hlc]
    rw [osp3_read_line_unfold, hm2, hm1, if_neg (by simp)]
    rw [hvlen, Nat.sub_self, if_neg (by omega)]
    have hsb : streamBytes dev.stream = a.drop dev.rbuf.rem ++ 10 :: r := by
      have ha : rbufValid dev ++ a.drop dev.rbuf.rem = a := by
        conv_rhs => rw [← List.take_append_drop dev.rbuf.rem a]
        rw [← hv3]
      have h2 : rbufValid dev ++ streamBytes dev.stream
          = rbufValid dev ++ (a.drop dev.rbuf.rem ++ 10 :: r) := by
        rw [hb2, ← List.append_assoc, ha]
      exact List.append_cancel_left h2
    have hnot2 : 10 ∉ a.drop dev.rbuf.rem := fun hm => hnot (List.mem_of_mem_drop hm)
    have hout : (rbufValid dev).length + (a.drop dev.rbuf.rem).length + 1 ≤ len := by
      rw [hvlen, List.length_drop]
      omega
    have hbudget : dev.stream.length + (len - (rbufValid dev).length) + 1 ≤ fuel := by
      rw [hvlen]
      omega
    obtain ⟨rb2, s2, hrun, h64, hi0, hr64, hrem2, hall2, hlen2⟩ :=
      read_line_loop_newline len fuel dev.stream (rbufValid dev) ⟨dev.rbuf.buf, 0, 0⟩
        (a.drop dev.rbuf.rem) r hbuf rfl rfl hall hsb hnot2 hout hbudget
    rw [hrun]
    have ha : rbufValid dev ++ a.drop dev.rbuf.rem = a := by
      conv_rhs => rw [← List.take_append_drop dev.rbuf.rem a]
      rw [← hv3]
    rw [show rbufValid dev ++ a.drop dev.rbuf.rem = a from ha]
    refine ⟨⟨rb2, s2⟩, rfl, ⟨h64, ?_⟩, hall2, hrem2, hlen2⟩
    show rb2.idx + rb2.rem ≤ 64
    omega

/-! # freshDev facts -/

theorem freshDev_wf (ps : List (List Nat)) : devWF (freshDev ps) := by
  constructor
  · show (List.replicate 64 0).length = 64
    simp
  · show 0 + 0 ≤ 64
    omega

theorem freshDev_allPkt (ps : List (List Nat)) : allPkt (freshDev ps).stream := by
  intro e he
  obtain ⟨p, hp, hpe⟩ := List.mem_map.mp he
  exact ⟨p, hpe.symm⟩

theorem freshDev_bytes (ps : List (List Nat)) : devBytes (freshDev ps) = ps.flatten := by
  show rbufValid (freshDev ps) ++ streamBytes (ps.map FetchEvent.pkt) = ps.flatten
  rw [streamBytes_pkts]
  rfl

/-- C3: for every newline-terminated line and every way of splitting the
incoming byte stream into packets of 1 to 64 bytes, repeated `osp3_read_line`
with a sufficiently large destination reconstructs a line byte-identical to
the one obtained when the same stream is delivered as a single packet. -/
theorem c3_split_invariance (body line : List Nat) (chunks : List (List Nat)) (len fuel : Nat)
    (hline : line = body ++ [10]) (hnot : 10 ∉ body)
    (hchunks : chunks.flatten = line)
    (hsz : ∀ c ∈ chunks, 1 ≤ c.length ∧ c.length ≤ 64)
    (hlen : line.length ≤ len)
    (hfuel : chunks.length + len + 1 ≤ fuel) (hfuel1 : 1 + len + 1 ≤ fuel) :
    ∃ d1 d2, osp3_read_line fuel (freshDev chunks) len = .ok line d1
      ∧ osp3_read_line fuel (freshDev [line]) len = .ok line d2 := by
  have hbody : body.length + 1 ≤ len := by
    rw [hline] at hlen
    simp at hlen
    omega
  have hcons : body ++ [10] = body ++ 10 :: ([] : List Nat) := rfl
  have h1 := read_line_newline fuel (freshDev chunks) len body [] (freshDev_wf chunks)
    (freshDev_allPkt chunks)
    (by rw [freshDev_bytes, hchunks, hline, hcons]) hnot hbody
    (by
      show (chunks.map FetchEvent.pkt).length + len + 1 ≤ fuel
      rw [List.length_map]
      exact hfuel)
  have h2 := read_line_newline fuel (freshDev [line]) len body [] (freshDev_wf [line])
    (freshDev_allPkt [line])
    (by
      rw [freshDev_bytes, hline, hcons]
      simp) hnot hbody
    (by
      show ([line].map FetchEvent.pkt).length + len + 1 ≤ fuel
      simpa using hfuel1)
  obtain ⟨d1, hrun1, hrest1⟩ := h1
  obtain ⟨d2, hrun2, hrest2⟩ := h2
  rw [← hline] at hrun1 hrun2
  exact ⟨d1, d2, hrun1, hrun2⟩

/-- C3 (witness): the example line delivered as 64+17 byte chunks and as a
single packet. -/
theorem c3_split_invariance_witness :
    ∃ d1 d2, osp3_read_line 100 (freshDev [exLine.take 64, exLine.drop 64]) 81
        = .ok exLine d1
      ∧ osp3_read_line 100 (freshDev [exLine]) 81 = .ok exLine d2 :=
  c3_split_invariance (exLine.take 80) exLine [exLine.take 64, exLine.drop 64] 81 100
    (by decide) (by decide) (by decide) (by decide) (by decide) (by decide) (by decide)

/-! # Success shape of the line reader -/

theorem read_line_loop_ok_last :
    ∀ (fuel len : Nat) (out : List Nat) (rb : osp3_rw_buffer) (s : List FetchEvent)
      (out2 : List Nat) (dev2 : osp3_device),
    read_line_loop fuel len out rb s = .ok out2 dev2 →
    out2 ≠ [] ∧ out2.getLast? = some 10 := by
  intro fuel
  induction fuel with
  | zero =>
    intro len out rb s out2 dev2 h
    exact ReadResult.noConfusion h
  | succ fuel ih =>
    intro len out rb s out2 dev2 h
    by_cases hzero : min OSP3_W_MAX_PACKET_SIZE (len - out.length) = 0
    · rw [read_line_loop_enobufs fuel len out rb s hzero] at h
      exact ReadResult.noConfusion h
    · cases hfetch : osp3_read_buf (min OSP3_W_MAX_PACKET_SIZE (len - out.length)) s with
      | mk res s2 =>
        cases res with
        | error e =>
          rw [read_line_loop_fail fuel len out rb s hzero hfetch] at h
          exact ReadResult.noConfusion h
        | ok give =>
          rw [read_line_loop_step fuel len out rb s hzero hfetch] at h
          by_cases hc : (lineccpy (len - out.length) give give.length).2 = true
          · rw [if_pos hc] at h
            injection h with h1 h2
            obtain ⟨hne, hlast⟩ := memccpyNL_complete (min (len - out.length) give.length) give hc
            rw [← h1]
            have hform : (lineccpy (len - out.length) give give.length).1
                = (memccpyNL (min (len - out.length) give.length) give).1 := rfl
            rw [hform]
            refine ⟨?_, ?_⟩
            · intro hcon
              exact hne (List.append_eq_nil.mp hcon).2
            · rw [List.getLast?_append_of_ne_nil _ hne]
              exact hlast
          · rw [if_neg hc] at h
            exact ih len (out ++ (lineccpy (len - out.length) give give.length).1) _ s2 out2 dev2 h

theorem read_line_ok_last (fuel : Nat) (dev : osp3_device) (len : Nat) (out : List Nat)
    (dev2 : osp3_device) (h : osp3_read_line fuel dev len = .ok out dev2) :
    out ≠ [] ∧ out.getLast? = some 10 := by
  rw [osp3_read_line_unfold] at h
  by_cases hc : (lineccpy len (dev.rbuf.buf.drop dev.rbuf.idx) dev.rbuf.rem).2 = true
  · rw [if_pos hc] at h
    injection h with h1 h2
    obtain ⟨hne, hlast⟩ :=
      memccpyNL_complete (min len dev.rbuf.rem) (dev.rbuf.buf.drop dev.rbuf.idx) hc
    rw [← h1]
    exact ⟨hne, hlast⟩
  · rw [if_neg hc] at h
    exact read_line_loop_ok_last fuel len _ _ _ out dev2 h

/-- C4: whenever `osp3_read_line` succeeds it has written at least one byte
and the last byte written is the newline; and bytes received past that
newline are retained in the lookahead buffer — neither lost, duplicated, nor
returned in this call — so the next call returns them as the prefix of the
following line. -/
theorem c4_success_last_and_carry :
    (∀ (fuel : Nat) (dev : osp3_device) (len : Nat) (out : List Nat) (dev2 : osp3_device),
      osp3_read_line fuel dev len = .ok out dev2 → out ≠ [] ∧ out.getLast? = some 10)
    ∧ (∀ (fuel : Nat) (dev : osp3_device) (len : Nat) (a b r : List Nat),
      devWF dev → allPkt dev.stream →
      devBytes dev = a ++ 10 :: (b ++ 10 :: r) → 10 ∉ a → 10 ∉ b →
      a.length + 1 ≤ len → b.length + 1 ≤ len →
      dev.stream.length + len + 1 ≤ fuel →
      ∃ dev2 dev3, osp3_read_line fuel dev len = .ok (a ++ [10]) dev2
        ∧ devBytes dev2 = b ++ 10 :: r
        ∧ osp3_read_line fuel dev2 len = .ok (b ++ [10]) dev3
        ∧ devBytes dev3 = r) := by
  constructor
  · intro fuel dev len out dev2 h
    exact read_line_ok_last fuel dev len out dev2 h
  · intro fuel dev len a b r hwf hall hbytes hna hnb hla hlb hfuel
    obtain ⟨dev2, hrun1, hwf2, hall2, hbytes2, hslen2⟩ :=
      read_line_newline fuel dev len a (b ++ 10 :: r) hwf hall hbytes hna hla hfuel
    obtain ⟨dev3, hrun2, hwf3, hall3, hbytes3, hslen3⟩ :=
      read_line_newline fuel dev2 len b r hwf2 hall2 hbytes2 hnb hlb (by omega)
    exact ⟨dev2, dev3, hrun1, hbytes2, hrun2, hbytes3⟩

/-- C4 (witness): a packet holding a complete line plus the next line's
prefix; the leftover bytes come back as the prefix of the second line. -/
theorem c4_success_last_and_carry_witness :
    (([65, 66, 10] : List Nat) ≠ [] ∧ ([65, 66, 10] : List Nat).getLast? = some 10)
    ∧ ∃ dev2 dev3,
      osp3_read_line 100 (freshDev [[65, 10, 66], [67, 10]]) 80 = .ok ([65] ++ [10]) dev2
      ∧ devBytes dev2 = [66, 67] ++ 10 :: []
      ∧ osp3_read_line 100 dev2 80 = .ok ([66, 67] ++ [10]) dev3
      ∧ devBytes dev3 = [] := by
  constructor
  · exact c4_success_last_and_carry.1 0
      ⟨⟨[65, 66, 10] ++ List.replicate 61 0, 0, 3⟩, []⟩ 80 [65, 66, 10]
      ⟨⟨[65, 66, 10] ++ List.replicate 61 0, 0, 0⟩, []⟩ (by decide)
  · have h := c4_success_last_and_carry.2 100 (freshDev [[65, 10, 66], [67, 10]]) 80
      [65] [66, 67] [] (freshDev_wf _) (freshDev_allPkt _) (by decide) (by decide)
      (by decide) (by decide) (by decide) (by decide)
    exact h

/-- C10: whenever the lookahead buffer's unconsumed bytes contain a newline
within the first `min(count, len)` bytes, `osp3_read_line` succeeds by copying
only from the lookahead buffer: the transport schedule is left untouched (no
fetch is issued, for any schedule — even one made of failures — and any fuel),
so such a call can never fail with a timeout or transport error. -/
theorem c10_lookahead_only (dev : osp3_device) (len : Nat) (a r : List Nat) (fuel : Nat)
    (hwf : devWF dev)
    (hval : rbufValid dev = a ++ 10 :: r) (hnot : 10 ∉ a) (hlen : a.length + 1 ≤ len) :
    osp3_read_line fuel dev len
      = .ok (a ++ [10])
          ⟨⟨dev.rbuf.buf,
            (if dev.rbuf.rem - (a.length + 1) > 0 then dev.rbuf.idx + (a.length + 1) else 0),
            dev.rbuf.rem - (a.length + 1)⟩, dev.stream⟩ :=
  read_line_lookahead dev len a r fuel hwf hval hnot hlen

/-- C10 (witness): a device whose lookahead buffer holds `AB\n` and whose
schedule holds only a timeout still succeeds with zero fuel, schedule intact. -/
theorem c10_lookahead_only_witness :
    osp3_read_line 0
        ⟨⟨[65, 66, 10] ++ List.replicate 61 0, 0, 3⟩, [FetchEvent.fail Errno.ETIME]⟩ 80
      = .ok ([65, 66] ++ [10])
          ⟨⟨[65, 66, 10] ++ List.replicate 61 0, 0, 0⟩, [FetchEvent.fail Errno.ETIME]⟩ :=
  c10_lookahead_only
    ⟨⟨[65, 66, 10] ++ List.replicate 61 0, 0, 3⟩, [FetchEvent.fail Errno.ETIME]⟩
    80 [65, 66] [] 0 (by decide) (by decide) (by decide) (by decide)

/-- C2 (witness): the EINVAL branch at `log_sz = 80` and the
trailing-bytes-ignored branch at `log_sz = 81`, on the example payload. -/
theorem c2_amended_witness :
    (osp3_log_parse exLine 80 = .err .EINVAL
      ∧ osp3_log_checksum_test exLine 80 20 18 = .err .EINVAL
      ∧ osp3_log_checksum exLine 80 = .err .EINVAL)
    ∧ (osp3_log_checksum_test exLine 81 20 18
          = osp3_log_checksum_test (exPayload79 ++ [99, 99]) 81 20 18
      ∧ osp3_log_checksum exLine 81 = osp3_log_checksum (exPayload79 ++ [99, 99]) 81) :=
  ⟨(c2_amended exLine (exPayload79 ++ [99, 99]) 80 20 18).1 (by omega),
   (c2_amended exLine (exPayload79 ++ [99, 99]) 81 20 18).2.1 (by omega) (by decide)⟩

/-! # The read-line loop when no newline arrives in the destination's room -/

theorem read_line_loop_nonl_cont (len fuel : Nat)
    (ih : ∀ (s : List FetchEvent) (out : List Nat) (rb : osp3_rw_buffer),
      rb.buf.length = 64 → rb.idx = 0 → rb.rem = 0 → allPkt s →
      10 ∉ (streamBytes s).take (len - out.length) →
      len - out.length ≤ (streamBytes s).length →
      s.length + (len - out.length) + 1 ≤ fuel →
      ∃ dev2, read_line_loop fuel len out rb s
        = .err .ENOBUFS (out ++ (streamBytes s).take (len - out.length)) dev2)
    (s : List FetchEvent) (out : List Nat) (rb : osp3_rw_buffer)
    (give : List Nat) (s2 : List FetchEvent)
    (hbuf : rb.buf.length = 64) (hidx : rb.idx = 0) (hrem : rb.rem = 0)
    (hzero : ¬ (min OSP3_W_MAX_PACKET_SIZE (len - out.length) = 0))
    (hfetch : osp3_read_buf (min OSP3_W_MAX_PACKET_SIZE (len - out.length)) s = (.ok give, s2))
    (hgle : give.length ≤ min OSP3_W_MAX_PACKET_SIZE (len - out.length))
    (hsb : streamBytes s = give ++ streamBytes s2)
    (hall2 : allPkt s2)
    (h10 : 10 ∉ (streamBytes s).take (len - out.length))
    (hlen : len - out.length ≤ (streamBytes s).length)
    (hfuel2 : s2.length + (len - (out.length + give.length)) + 1 ≤ fuel) :
    ∃ dev2, read_line_loop (fuel + 1) len out rb s
      = .err .ENOBUFS (out ++ (streamBytes s).take (len - out.length)) dev2 := by
  have hgl2 : give.length ≤ len - out.length :=
    le_trans hgle (min_le_right _ _)
  have htake : (streamBytes s).take (len - out.length)
      = give ++ (streamBytes s2).take (len - out.length - give.length) := by
    rw [hsb, List.take_append_eq_append_take, List.take_of_length_le hgl2]
  have h10g : 10 ∉ give := fun hmem =>
    h10 (by rw [htake]; exact List.mem_append_left _ hmem)
  have h10r : 10 ∉ (streamBytes s2).take (len - out.length - give.length) := fun hmem =>
    h10 (by rw [htake]; exact List.mem_append_right _ hmem)
  have hminlc : min (len - out.length) give.length = give.length := by omega
  have hlc : lineccpy (len - out.length) give give.length = (give, false) := by
    unfold lineccpy
    rw [hminlc, memccpyNL_not_found give.length give (by rw [List.take_length]; exact h10g)]
    rw [List.take_length]
  have hsblen : (streamBytes s).length = give.length + (streamBytes s2).length := by
    rw [hsb, List.length_append]
  obtain ⟨dev2, hrun⟩ := ih s2 (out ++ give)
      ⟨give.drop give.length ++ rb.buf.drop (give.length - give.length), rb.idx,
        give.length - give.length⟩
      (by simp [List.drop_length, Nat.sub_self, hbuf])
      hidx (Nat.sub_self _) hall2
      (by
        rw [List.length_append,
          show len - (out.length + give.length) = len - out.length - give.length from by omega]
        exact h10r)
      (by
        rw [List.length_append]
        omega)
      (by
        rw [List.length_append]
        exact hfuel2)
  refine ⟨dev2, ?_⟩
  rw [read_line_loop_step fuel len out rb s hzero hfetch, hlc]
  show read_line_loop fuel len (out ++ give)
      ⟨give.drop give.length ++ rb.buf.drop (give.length - give.length), rb.idx,
        give.length - give.length⟩ s2
    = ReadResult.err Errno.ENOBUFS (out ++ (streamBytes s).take (len - out.length)) dev2
  rw [hrun, htake, ← List.append_assoc, List.length_append,
    show len - (out.length + give.length) = len - out.length - give.length from by omega]

theorem read_line_loop_nonl (len : Nat) :
    ∀ (fuel : Nat) (s : List FetchEvent) (out : List Nat) (rb : osp3_rw_buffer),
    rb.buf.length = 64 → rb.idx = 0 → rb.rem = 0 →
    allPkt s →
    10 ∉ (streamBytes s).take (len - out.length) →
    len - out.length ≤ (streamBytes s).length →
    s.length + (len - out.length) + 1 ≤ fuel →
    ∃ dev2, read_line_loop fuel len out rb s
      = .err .ENOBUFS (out ++ (streamBytes s).take (len - out.length)) dev2 := by
  intro fuel
  induction fuel with
  | zero =>
    intro s out rb hbuf hidx hrem hall h10 hlen hfuel
    omega
  | succ fuel ih =>
    intro s out rb hbuf hidx hrem hall h10 hlen hfuel
    by_cases hzero : min OSP3_W_MAX_PACKET_SIZE (len - out.length) = 0
    · have hlz : len - out.length = 0 := by
        unfold OSP3_W_MAX_PACKET_SIZE at hzero
        omega
      refine ⟨⟨rb, s⟩, ?_⟩
      rw [read_line_loop_enobufs fuel len out rb s hzero, hlz]
      rw [List.take_zero, List.append_nil]
    · cases s with
      | nil =>
        exfalso
        unfold OSP3_W_MAX_PACKET_SIZE at hzero
        rw [show streamBytes [] = [] from rfl] at hlen
        simp at hlen
        omega
      | cons ev s1 =>
        obtain ⟨p, hp⟩ := hall ev (by simp)
        subst hp
        have hall1 : allPkt s1 := fun e he => hall e (by simp [he])
        have hfetch := osp3_read_buf_pkt (min OSP3_W_MAX_PACKET_SIZE (len - out.length)) p s1
        have hslen : (FetchEvent.pkt p :: s1).length = s1.length + 1 := rfl
        have hm1 : 1 ≤ min OSP3_W_MAX_PACKET_SIZE (len - out.length) := by
          unfold OSP3_W_MAX_PACKET_SIZE at hzero ⊢
          omega
        by_cases hple : p.length ≤ min OSP3_W_MAX_PACKET_SIZE (len - out.length)
        · rw [if_pos hple, List.take_of_length_le hple] at hfetch
          exact read_line_loop_nonl_cont len fuel ih (FetchEvent.pkt p :: s1) out rb p s1
            hbuf hidx hrem hzero hfetch hple rfl hall1 h10 hlen
            (by
              rw [hslen] at hfuel
              omega)
        · rw [if_neg hple] at hfetch
          push_neg at hple
          have hgl : (p.take (min OSP3_W_MAX_PACKET_SIZE (len - out.length))).length
              = min OSP3_W_MAX_PACKET_SIZE (len - out.length) := by
            rw [List.length_take]
            omega
          exact read_line_loop_nonl_cont len fuel ih (FetchEvent.pkt p :: s1) out rb
            (p.take (min OSP3_W_MAX_PACKET_SIZE (len - out.length)))
            (FetchEvent.pkt (p.drop (min OSP3_W_MAX_PACKET_SIZE (len - out.length))) :: s1)
            hbuf hidx hrem hzero hfetch (le_of_eq hgl)
            (by
              show p ++ streamBytes s1
                  = p.take (min OSP3_W_MAX_PACKET_SIZE (len - out.length))
                    ++ (p.drop (min OSP3_W_MAX_PACKET_SIZE (len - out.length))
                        ++ streamBytes s1)
              rw [← List.append_assoc, List.take_append_drop])
            (by
              intro e he
              rcases List.mem_cons.mp he with h1 | h1
              · exact ⟨_, h1⟩
              · exact hall1 e h1)
            h10 hlen
            (by
              rw [List.length_cons, hgl]
              rw [hslen] at hfuel
              omega)

/-- `osp3_read_line` on a well-formed device whose pending content has no
newline within the first `len` bytes (and at least `len` bytes pending,
packet-only schedule, enough fuel) fails with `ENOBUFS` after writing exactly
the first `len` pending bytes. -/
theorem read_line_nonl (fuel : Nat) (dev : osp3_device) (len : Nat)
    (hwf : devWF dev) (hall : allPkt dev.stream)
    (h10 : 10 ∉ (devBytes dev).take len)
    (hlen : len ≤ (devBytes dev).length)
    (hfuel : dev.stream.length + len + 1 ≤ fuel) :
    ∃ dev2, osp3_read_line fuel dev len
      = .err .ENOBUFS ((devBytes dev).take len) dev2 := by
  obtain ⟨hbuf, hidx⟩ := hwf
  have hvlen : (rbufValid dev).length = dev.rbuf.rem := by
    show ((dev.rbuf.buf.drop dev.rbuf.idx).take dev.rbuf.rem).length = dev.rbuf.rem
    rw [List.length_take, List.length_drop, hbuf]
    omega
  have hvlen2 : ((dev.rbuf.buf.drop dev.rbuf.idx).take dev.rbuf.rem).length
      = dev.rbuf.rem := hvlen
  have hdb : (devBytes dev).length
      = dev.rbuf.rem + (streamBytes dev.stream).length := by
    show (rbufValid dev ++ streamBytes dev.stream).length = _
    rw [List.length_append, hvlen]
  have hvtake : (dev.rbuf.buf.drop dev.rbuf.idx).take (min len dev.rbuf.rem)
      = (devBytes dev).take (min len dev.rbuf.rem) := by
    show _ = (rbufValid dev ++ streamBytes dev.stream).take (min len dev.rbuf.rem)
    rw [List.take_append_eq_append_take, hvlen,
      show min len dev.rbuf.rem - dev.rbuf.rem = 0 from by omega,
      List.take_zero, List.append_nil]
    show _ = ((dev.rbuf.buf.drop dev.rbuf.idx).take dev.rbuf.rem).take (min len dev.rbuf.rem)
    rw [List.take_take,
      show min (min len dev.rbuf.rem) dev.rbuf.rem = min len dev.rbuf.rem from by omega]
  have h10v : 10 ∉ (dev.rbuf.buf.drop dev.rbuf.idx).take (min len dev.rbuf.rem) := by
    rw [hvtake]
    intro hmem
    apply h10
    have h2 : (devBytes dev).take (min len dev.rbuf.rem)
        = ((devBytes dev).take len).take (min len dev.rbuf.rem) := by
      rw [List.take_take,
        show min (min len dev.rbuf.rem) len = min len dev.rbuf.rem from by omega]
    rw [h2] at hmem
    exact List.mem_of_mem_take hmem
  have hlc : lineccpy len (dev.rbuf.buf.drop dev.rbuf.idx) dev.rbuf.rem
      = ((dev.rbuf.buf.drop dev.rbuf.idx).take (min len dev.rbuf.rem), false) := by
    unfold lineccpy
    exact memccpyNL_not_found (min len dev.rbuf.rem) (dev.rbuf.buf.drop dev.rbuf.idx) h10v
  have hol : ((dev.rbuf.buf.drop dev.rbuf.idx).take (min len dev.rbuf.rem)).length
      = min len dev.rbuf.rem := by
    rw [List.length_take, List.length_drop, hbuf]
    omega
  have hmain : osp3_read_line fuel dev len
      = read_line_loop fuel len
          ((dev.rbuf.buf.drop dev.rbuf.idx).take (min len dev.rbuf.rem))
          ⟨dev.rbuf.buf,
            (if dev.rbuf.rem - min len dev.rbuf.rem > 0
              then dev.rbuf.idx + min len dev.rbuf.rem else 0),
            dev.rbuf.rem - min len dev.rbuf.rem⟩
          dev.stream := by
    rw [osp3_read_line_unfold, hlc]
    show (if false = true then _ else _) = _
    rw [if_neg (by simp)]
    show read_line_loop fuel len
        ((dev.rbuf.buf.drop dev.rbuf.idx).take (min len dev.rbuf.rem))
        ⟨dev.rbuf.buf,
          (if dev.rbuf.rem
              - ((dev.rbuf.buf.drop dev.rbuf.idx).take (min len dev.rbuf.rem)).length > 0
            then dev.rbuf.idx
              + ((dev.rbuf.buf.drop dev.rbuf.idx).take (min len dev.rbuf.rem)).length
            else 0),
          dev.rbuf.rem
            - ((dev.rbuf.buf.drop dev.rbuf.idx).take (min len dev.rbuf.rem)).length⟩
        dev.stream = _
    rw [hol]
  by_cases hcase : len ≤ dev.rbuf.rem
  · have hw : min len dev.rbuf.rem = len := by omega
    rw [hw] at hmain hvtake
    have hol2 : ((dev.rbuf.buf.drop dev.rbuf.idx).take len).length = len := by
      rw [List.length_take, List.length_drop, hbuf]
      omega
    cases fuel with
    | zero => omega
    | succ f =>
      refine ⟨⟨⟨dev.rbuf.buf,
          (if dev.rbuf.rem - len > 0 then dev.rbuf.idx + len else 0),
          dev.rbuf.rem - len⟩, dev.stream⟩, ?_⟩
      rw [hmain, read_line_loop_enobufs f len _ _ _ (by
        rw [hol2]
        unfold OSP3_W_MAX_PACKET_SIZE
        omega)]
      rw [hvtake]
  · push_neg at hcase
    have hw : min len dev.rbuf.rem = dev.rbuf.rem := by omega
    rw [hw, Nat.sub_self, if_neg (show ¬ (0 : Nat) > 0 from by omega)] at hmain
    have hrle : (rbufValid dev).length ≤ len := by
      rw [hvlen]
      omega
    have hdbtake : (devBytes dev).take len
        = rbufValid dev ++ (streamBytes dev.stream).take (len - dev.rbuf.rem) := by
      show (rbufValid dev ++ streamBytes dev.stream).take len = _
      rw [List.take_append_eq_append_take, List.take_of_length_le hrle, hvlen]
    obtain ⟨dev2, hrun⟩ := read_line_loop_nonl len fuel dev.stream
      ((dev.rbuf.buf.drop dev.rbuf.idx).take dev.rbuf.rem)
      ⟨dev.rbuf.buf, 0, 0⟩ hbuf rfl rfl hall
      (by
        rw [hvlen2]
        intro hmem
        exact h10 (by rw [hdbtake]; exact List.mem_append_right _ hmem))
      (by
        rw [hvlen2]
        omega)
      (by
        rw [hvlen2]
        omega)
    refine ⟨dev2, ?_⟩
    rw [hmain, hrun, hvlen2]
    show ReadResult.err Errno.ENOBUFS
        (rbufValid dev ++ (streamBytes dev.stream).take (len - dev.rbuf.rem)) dev2
      = ReadResult.err Errno.ENOBUFS ((devBytes dev).take len) dev2
    rw [hdbtake]

/-- C8: when the destination's room is exhausted before a newline arrives,
`osp3_read_line` fails with `ENOBUFS` while holding the first `len` pending
bytes (not an empty "no data" result); in particular, for the 81-byte example
line arriving split 64+17, a destination of exactly 80 bytes fails with
`ENOBUFS` while a destination of exactly 81 bytes returns the full line. -/
theorem c8_enobufs :
    (∀ (fuel : Nat) (dev : osp3_device) (len : Nat),
      devWF dev → allPkt dev.stream →
      10 ∉ (devBytes dev).take len →
      len ≤ (devBytes dev).length →
      dev.stream.length + len + 1 ≤ fuel →
      ∃ dev2, osp3_read_line fuel dev len
        = .err .ENOBUFS ((devBytes dev).take len) dev2)
    ∧ osp3_read_line 10 (freshDev [exLine.take 64, exLine.drop 64]) 80
        = .err .ENOBUFS (exLine.take 80) ⟨⟨List.replicate 64 0, 0, 0⟩, [.pkt [10]]⟩
    ∧ osp3_read_line 10 (freshDev [exLine.take 64, exLine.drop 64]) 81
        = .ok exLine ⟨⟨List.replicate 64 0, 0, 0⟩, []⟩ := by
  refine ⟨?_, by decide, by decide⟩
  intro fuel dev len hwf hall h10 hlen hfuel
  exact read_line_nonl fuel dev len hwf hall h10 hlen hfuel

/-- C8 (witness): a two-byte destination exhausted by a newline-free stream. -/
theorem c8_enobufs_witness :
    ∃ dev2, osp3_read_line 10 (freshDev [[65, 66]]) 2
      = .err .ENOBUFS ((devBytes (freshDev [[65, 66]])).take 2) dev2 :=
  c8_enobufs.1 10 (freshDev [[65, 66]]) 2 (freshDev_wf _) (freshDev_allPkt _)
    (by decide) (by decide) (by decide)

end OSP3
